import Mathlib

/-!
Verification development for the Web-Explorer knowledge subsystem.

This file gives a shallow embedding of the knowledge data model and the
operations on it found in the repository sources
(web_explorer/knowledge.py, knowledge_maintenance.py, state_matcher.py,
action_selector.py, path_finder.py), and proves or refutes the claims of
the specification against that embedding.

Modelling conventions:
- Python dicts (which preserve insertion order) become association lists
  `List (String × α)`; insertion of a fresh key appends, assignment to an
  existing key updates in place.
- Python object identity and in-place mutation become arena-style storage:
  `AppKnowledge` owns every `AbstractState` and `AbstractAction` keyed by
  id, and back-pointers are stored ids, exactly as the design notes of the
  spec suggest for a re-implementation.
- `uuid.uuid4()` becomes a threaded counter `gen : Nat`; freshness of the
  generated ids with respect to pre-existing ids is a hypothesis where a
  theorem needs it (uuid collisions are assumed impossible).
- External primitives (the sha256 hex digest, the LLM equivalence oracle
  and the LLM element grouper) are parameters collected in `Oracles`;
  the spec of the repository treats them as opaque oracles.
- A Python run that raises an uncaught exception is modelled by `none`.
-/

namespace WebExplorer

/-- Mirrors ExplorationFlag in knowledge.py. -/
inductive ExplorationFlag where
  | unexplored
  | explored
  | ineffective
deriving DecidableEq, Repr

/-- The .value string of the Python str-Enum. -/
def ExplorationFlag.value : ExplorationFlag → String
  | .unexplored => "unexplored"
  | .explored => "explored"
  | .ineffective => "ineffective"

/-- Models the ExplorationFlag(s) enum constructor; none models ValueError. -/
def ExplorationFlag.ofString : String → Option ExplorationFlag
  | "unexplored" => some .unexplored
  | "explored" => some .explored
  | "ineffective" => some .ineffective
  | _ => none

/-- Mirrors ActionType in knowledge.py. -/
inductive ActionType where
  | click
  | long_click
  | scroll
  | input
deriving DecidableEq, Repr

/-- The .value string of the Python str-Enum. -/
def ActionType.value : ActionType → String
  | .click => "click"
  | .long_click => "long_click"
  | .scroll => "scroll"
  | .input => "input"

/-- Models the ActionType(s) enum constructor; none models ValueError. -/
def ActionType.ofString : String → Option ActionType
  | "click" => some .click
  | "long_click" => some .long_click
  | "scroll" => some .scroll
  | "input" => some .input
  | _ => none

/-- Mirrors UIElement in knowledge.py. -/
structure UIElement where
  node_id : String
  description : String
deriving DecidableEq, Repr

/-- Mirrors AbstractAction in knowledge.py; the back-pointers to the source
and target abstract states are stored as state ids (arena style). -/
structure AbstractAction where
  action_id : String
  action_type : ActionType := .click
  actual_elements : List UIElement := []
  exploration_flag : ExplorationFlag := .unexplored
  function_desc : String := ""
  source_abs_state : Option String := none
  target_abs_state : Option String := none
deriving DecidableEq, Repr

/-- A DOM structure node, as traversed by StateMatcher.extract_tags: a
Python dict with optional tag and children, a Python list, or any other
value (which contributes nothing). -/
inductive DomNode where
  | node (tag : String) (children : List DomNode)
  | arr (children : List DomNode)
  | leaf
deriving Repr

/-- One entry of the element_groups metadata, a dict with an elements list
and a function description; json-dump equality used for deduplication in
the source becomes structural equality. -/
structure ElementGroup where
  elements : List String
  function : String
deriving DecidableEq, Repr

/-- A candidate concrete action as produced by the element grouper or
cached on the snapshot: a dict with action_type, element_id, optional
function, optional xpath (empty string models a missing or falsy value,
matching Python truthiness) and optional further element ids. -/
structure ConcreteAction where
  action_type : String
  element_id : String
  function : String := ""
  xpath : String := ""
  elements : List String := []
deriving DecidableEq, Repr

/-- A concrete browser snapshot, restricted to the keys the modelled code
reads: url, dom_tree, page_description, element_groups, grouped_actions.
Option encodes key presence where the source tests membership; the
plain-string and list fields model a .get with the default the source
uses. Modelled snapshots carry no top-level tag or children keys. -/
structure Snapshot where
  url : Option String := none
  dom_tree : Option DomNode := none
  page_description : String := ""
  element_groups : List ElementGroup := []
  grouped_actions : Option (List ConcreteAction) := none
deriving Repr

/-- Mirrors AbstractState in knowledge.py; the actions dict becomes the
list of its keys (action ids) in insertion order, the actions themselves
living in the AppKnowledge arena. -/
structure AbstractState where
  state_id : String
  repr_signature : String := ""
  concrete_states : List Snapshot := []
  actions : List String := []
  page_description : String := ""
  element_groups : List ElementGroup := []
deriving Repr

/-- A directed multigraph edge: source state id, target state id, and the
action id that keys the edge. -/
structure Edge where
  src : String
  dst : String
  key : String
deriving DecidableEq, Repr

/-- Mirrors AbstractInteractionGraph: node ids plus keyed edges, both in
insertion order. A MultiDiGraph holds at most one edge per (src, dst, key)
triple, which the add operation maintains. -/
structure AbstractInteractionGraph where
  nodes : List String := []
  edges : List Edge := []
deriving Repr

/-- Mirrors RawTraceItem in knowledge.py. -/
structure RawTraceItem where
  start_state : Option Snapshot
  action : Option ConcreteAction
  end_state : Snapshot
deriving Repr

/-- Mirrors AppKnowledge in knowledge.py. unexplored_action_ids is a
Python set, modelled as a duplicate-free list with membership-based add
and discard. -/
structure AppKnowledge where
  raw_trace : List RawTraceItem := []
  abstract_states : List (String × AbstractState) := []
  abstract_actions : List (String × AbstractAction) := []
  aig : AbstractInteractionGraph := {}
  unexplored_action_ids : List String := []
deriving Repr

/-- The empty AppKnowledge (the dataclass defaults). -/
def emptyKnowledge : AppKnowledge := {}

/-- Association-list lookup, mirroring Python dict access. -/
def dictLookup {α : Type} (l : List (String × α)) (k : String) : Option α :=
  (l.find? (fun p => p.1 = k)).map (fun p => p.2)

/-- Association-list key-membership test. -/
def dictContains {α : Type} (l : List (String × α)) (k : String) : Bool :=
  l.any (fun p => p.1 = k)

/-- Association-list assignment: update in place if the key exists,
append otherwise, as a Python dict does. -/
def dictInsert {α : Type} (l : List (String × α)) (k : String) (v : α) :
    List (String × α) :=
  if dictContains l k then l.map (fun p => if p.1 = k then (k, v) else p)
  else l ++ [(k, v)]

/-- Update the value stored at a key, leaving the dict unchanged when the
key is absent (mirrors mutating the object stored at that key). -/
def dictModify {α : Type} (l : List (String × α)) (k : String) (f : α → α) :
    List (String × α) :=
  l.map (fun p => if p.1 = k then (p.1, f p.2) else p)

/-- The keys of an association list, in order. -/
def dictKeys {α : Type} (l : List (String × α)) : List String :=
  l.map (fun p => p.1)

/-- Set insertion for the unexplored index (Python set.add). -/
def setAdd (s : List String) (x : String) : List String :=
  if x ∈ s then s else s ++ [x]

/-- Set removal for the unexplored index (Python set.discard). -/
def setDiscard (s : List String) (x : String) : List String :=
  s.filter (fun y => y ≠ x)

/-- Models uuid.uuid4 through a threaded counter: the n-th id drawn. The
unary encoding makes distinctness of draws (which uuid4 guarantees)
directly provable. -/
def uuidGen (n : Nat) : String := "uuid-" ++ String.mk (List.replicate n 'u')

/-- AbstractInteractionGraph.add_state: add the node if not present. -/
def AbstractInteractionGraph.add_state (g : AbstractInteractionGraph)
    (sid : String) : AbstractInteractionGraph :=
  if sid ∈ g.nodes then g else { g with nodes := g.nodes ++ [sid] }

/-- The graph part of AbstractInteractionGraph.add_edge: ensure both nodes
exist, then add the keyed edge; a MultiDiGraph holds one edge per
(src, dst, key) triple, so re-adding an existing triple is the identity on
the edge list (only the payload attrs, not modelled, would be updated). -/
def AbstractInteractionGraph.add_edge_raw (g : AbstractInteractionGraph)
    (src dst key : String) : AbstractInteractionGraph :=
  let g := g.add_state src
  let g := g.add_state dst
  if Edge.mk src dst key ∈ g.edges then g
  else { g with edges := g.edges ++ [Edge.mk src dst key] }

/-- MultiDiGraph.remove_edge(u, v, key): the keyed multigraph holds at most
one edge per triple, so removal is filtering that triple out; on a graph
that does not hold the triple the source wraps the call in try/except, and
callers of this model encode that no-op themselves where relevant. -/
def AbstractInteractionGraph.remove_edge (g : AbstractInteractionGraph)
    (src dst key : String) : AbstractInteractionGraph :=
  { g with edges := g.edges.filter (fun e => e ≠ Edge.mk src dst key) }

/-- The keys of the multi-edge dict returned by get_edge_data(u, v), in
insertion order; the empty list models get_edge_data returning None. -/
def AbstractInteractionGraph.edge_keys (g : AbstractInteractionGraph)
    (u v : String) : List String :=
  (g.edges.filter (fun e => e.src = u ∧ e.dst = v)).map (fun e => e.key)

/-- AppKnowledge.register_action: insert into the global dict and, when
unexplored, into the unexplored index. -/
def AppKnowledge.register_action (K : AppKnowledge) (a : AbstractAction) :
    AppKnowledge :=
  { K with
    abstract_actions := dictInsert K.abstract_actions a.action_id a,
    unexplored_action_ids :=
      if a.exploration_flag = .unexplored then
        setAdd K.unexplored_action_ids a.action_id
      else K.unexplored_action_ids }

/-- AppKnowledge.update_action_flag. The Python method receives the action
object itself; every call site in the repository passes an action stored
in abstract_actions, so the model receives the action id and resolves it
in the arena (returning K unchanged on a dangling id). -/
def AppKnowledge.update_action_flag (K : AppKnowledge) (aid : String)
    (new_flag : ExplorationFlag) : AppKnowledge :=
  match dictLookup K.abstract_actions aid with
  | none => K
  | some a =>
    let prev := a.exploration_flag
    let K := { K with
      abstract_actions := dictModify K.abstract_actions aid
        (fun a => { a with exploration_flag := new_flag }) }
    let u := K.unexplored_action_ids
    let u := if prev = .unexplored ∧ new_flag ≠ .unexplored then setDiscard u aid else u
    let u := if prev ≠ .unexplored ∧ new_flag = .unexplored then setAdd u aid else u
    { K with unexplored_action_ids := u }

/-- AppKnowledge.get_or_create_state: linear search by signature; on a miss
a new state is created (with a fresh uuid), stored and added to the graph.
Returns the key of the state entry together with the updated knowledge and
id-counter. -/
def AppKnowledge.get_or_create_state (K : AppKnowledge) (sig : String)
    (gen : Nat) : String × AppKnowledge × Nat :=
  match K.abstract_states.find? (fun p => p.2.repr_signature = sig) with
  | some p => (p.1, K, gen)
  | none =>
    let st : AbstractState := { state_id := uuidGen gen, repr_signature := sig }
    (st.state_id,
     { K with
       abstract_states := dictInsert K.abstract_states st.state_id st,
       aig := K.aig.add_state st.state_id },
     gen + 1)

/-- AppKnowledge.add_raw_trace_item. -/
def AppKnowledge.add_raw_trace_item (K : AppKnowledge)
    (start_state : Option Snapshot) (action : Option ConcreteAction)
    (end_state : Snapshot) : AppKnowledge :=
  { K with raw_trace := K.raw_trace ++ [RawTraceItem.mk start_state action end_state] }

/-- AbstractInteractionGraph.add_edge lifted to the arena: adds the keyed
edge and overwrites the action back-pointers (source_abs_state and
target_abs_state) with the given source and target state ids. -/
def AppKnowledge.aig_add_edge (K : AppKnowledge) (src aid dst : String) :
    AppKnowledge :=
  { K with
    aig := K.aig.add_edge_raw src dst aid,
    abstract_actions := dictModify K.abstract_actions aid
      (fun a => { a with source_abs_state := some src, target_abs_state := some dst }) }

/-- External collaborators consumed as opaque parameters: the sha256 hex
digest, the optional state-equivalence oracle (none when no API key is
configured), and the element grouper. -/
structure Oracles where
  hash : String → String
  equiv : Option (Snapshot → Snapshot → Bool)
  grouper : Snapshot → List ConcreteAction

/-- The module-level equivalence cache, keyed by truncated signatures. -/
abbrev Cache : Type := List ((String × String) × Bool)

/-- Cache lookup. -/
def cacheLookup (c : Cache) (k : String × String) : Option Bool :=
  (c.find? (fun p => p.1 = k)).map (fun p => p.2)

/-- Cache store (the source only assigns on a miss, so append suffices). -/
def cacheInsert (c : Cache) (k : String × String) (b : Bool) : Cache :=
  c ++ [(k, b)]

mutual

/-- StateMatcher.extract_tags: depth-first collection of non-empty tag
names, stopping once 256 tags are accumulated (the bound is re-checked on
every recursive entry). -/
def extract_tags (node : DomNode) (acc : List String) : List String :=
  if acc.length ≥ 256 then acc
  else
    match node with
    | .node tag children =>
      let acc := if tag ≠ "" then acc ++ [tag] else acc
      extract_tags_list children acc
    | .arr children => extract_tags_list children acc
    | .leaf => acc

def extract_tags_list (nodes : List DomNode) (acc : List String) : List String :=
  match nodes with
  | [] => acc
  | c :: cs => extract_tags_list cs (extract_tags c acc)

end

/-- Models Python str.strip: drop whitespace from both ends. -/
def pyStrip (s : String) : String :=
  String.mk (((s.toList.dropWhile Char.isWhitespace).reverse.dropWhile
    Char.isWhitespace).reverse)

/-- Models Python str.lower on the character list. -/
def pyLower (s : String) : String :=
  String.mk (s.toList.map Char.toLower)

/-- Skip everything through the first scheme separator. -/
def dropThroughScheme : List Char → Option (List Char)
  | [] => none
  | ':' :: '/' :: '/' :: rest => some rest
  | _ :: rest => dropThroughScheme rest

/-- The path plus optional query component that urllib.parse.urlparse
extracts in StateMatcher.signature: the fragment is dropped, the scheme
and authority are skipped, and a non-empty query is re-attached after a
question mark. -/
def urlPathQuery (url : String) : String :=
  let noFrag := url.toList.takeWhile (fun c => c ≠ '#')
  let pq :=
    match dropThroughScheme noFrag with
    | some afterScheme => afterScheme.dropWhile (fun c => c ≠ '/')
    | none => noFrag
  let path := pq.takeWhile (fun c => c ≠ '?')
  let query := (pq.dropWhile (fun c => c ≠ '?')).drop 1
  if query ≠ [] then String.mk (path ++ '?' :: query) else String.mk path

/-- StateMatcher.canonicalize: the comma-joined tag list of the dom_tree
(when the snapshot has no dom_tree key the whole snapshot dict is
traversed instead; a modelled snapshot has no tag or children keys, so no
tags are collected). The pure traversal cannot raise, so the broad except
fallback of the source is unreachable here. -/
def canonicalize (snap : Snapshot) : String :=
  match snap.dom_tree with
  | some dom => String.intercalate "," (extract_tags dom [])
  | none => ""

/-- StateMatcher.signature: hash of the canonical DOM string joined with
the url path and query by a vertical bar. -/
def signature (hash : String → String) (snap : Snapshot) : String :=
  let canon := canonicalize snap
  let url :=
    match snap.url with
    | some u => urlPathQuery u
    | none => ""
  hash (canon ++ "|" ++ url)

/-- StateMatcher.safe_sig: the signature truncated to 16 characters (the
exception fallback of the source is unreachable for the pure model). -/
def safe_sig (hash : String → String) (snap : Snapshot) : String :=
  (signature hash snap).take 16

/-- The per-state reference scan of StateMatcher.match_state step 2: walk
up to three representative snapshots, consulting and extending the
equivalence cache, and report whether one of them is judged equivalent. -/
def scanRefs (eqo : Snapshot → Snapshot → Bool) (hash : String → String)
    (snap : Snapshot) : List Snapshot → Cache → Bool × Cache
  | [], c => (false, c)
  | r :: rs, c =>
    let key := (safe_sig hash r, safe_sig hash snap)
    match cacheLookup c key with
    | some b => if b then (true, c) else scanRefs eqo hash snap rs c
    | none =>
      let b := eqo r snap
      let c := cacheInsert c key b
      if b then (true, c) else scanRefs eqo hash snap rs c

/-- The state loop of StateMatcher.match_state step 2. -/
def scanStates (eqo : Snapshot → Snapshot → Bool) (hash : String → String)
    (snap : Snapshot) : List (String × AbstractState) → Cache →
    Option String × Cache
  | [], c => (none, c)
  | (sid, st) :: rest, c =>
    match scanRefs eqo hash snap (st.concrete_states.take 3) c with
    | (true, c) => (some sid, c)
    | (false, c) => scanStates eqo hash snap rest c

/-- StateMatcher.match_state: first an exact signature match over the
stored states, then (only with a configured equivalence oracle) the cached
oracle scan; returns the key of the matched state entry. -/
def match_state (O : Oracles) (K : AppKnowledge) (c : Cache)
    (snap : Snapshot) : Option String × Cache :=
  let sig := signature O.hash snap
  match K.abstract_states.find? (fun p => p.2.repr_signature = sig) with
  | some p => (some p.1, c)
  | none =>
    match O.equiv with
    | none => (none, c)
    | some eqo => scanStates eqo O.hash snap K.abstract_states c

/-- The element-group union merge of KnowledgeMaintainer.update_knowledge:
new groups are appended unless already present in the original list (the
seen-set of the source is computed once, before the loop, so duplicates
within the incoming list are all appended). -/
def mergeGroups (old new_ : List ElementGroup) : List ElementGroup :=
  old ++ new_.filter (fun g => decide (g ∉ old))

/-- KnowledgeMaintainer.match_abstract_action: the first registered action
of the same type that holds the concrete element id. -/
def match_abstract_action (K : AppKnowledge) (ca : ConcreteAction) :
    Option String :=
  (K.abstract_actions.find? (fun p =>
    p.2.action_type.value = ca.action_type ∧
    p.2.actual_elements.any (fun e => e.node_id = ca.element_id))).map (fun p => p.1)

/-- KnowledgeMaintainer.action_matches_existing: scan the registered
actions of matching type; match by exact element id, else by non-empty
case-insensitive function description (merging the new element id into the
matched action), else by xpath against a known element description
(merging id and xpath). Returns the verdict with the possibly-mutated
action table. -/
def action_matches_existing (ca : ConcreteAction) :
    List (String × AbstractAction) → Bool × List (String × AbstractAction)
  | [] => (false, [])
  | (k, a) :: rest =>
    let target_func := pyLower (pyStrip ca.function)
    if a.action_type.value ≠ ca.action_type then
      let r := action_matches_existing ca rest
      (r.1, (k, a) :: r.2)
    else if a.actual_elements.any (fun e => e.node_id = ca.element_id) then
      (true, (k, a) :: rest)
    else if target_func ≠ "" ∧ pyLower (pyStrip a.function_desc) = target_func then
      (true,
       (k, { a with actual_elements := a.actual_elements ++ [UIElement.mk ca.element_id ""] })
         :: rest)
    else if ca.xpath ≠ "" ∧ a.actual_elements.any (fun e => e.description = ca.xpath) then
      (true,
       (k, { a with actual_elements := a.actual_elements ++ [UIElement.mk ca.element_id ca.xpath] })
         :: rest)
    else
      let r := action_matches_existing ca rest
      (r.1, (k, a) :: r.2)

/-- KnowledgeMaintainer.create_abstract_action: a fresh action holding the
primary element (with the xpath as description) followed by the remaining
element ids; none models the ValueError an unknown action type raises. -/
def create_abstract_action (ca : ConcreteAction) (gen : Nat) :
    Option (AbstractAction × Nat) :=
  match ActionType.ofString ca.action_type with
  | none => none
  | some ty =>
    some
      ({ action_id := uuidGen gen,
         action_type := ty,
         actual_elements :=
           UIElement.mk ca.element_id ca.xpath ::
             (ca.elements.drop 1).map (fun eid => UIElement.mk eid ""),
         exploration_flag := .unexplored,
         function_desc := ca.function },
       gen + 1)

/-- Step 3 of KnowledgeMaintainer.update_knowledge: for every candidate
action, either recognise it as an existing abstract action (possibly
merging its element into that action) or register a brand-new unexplored
action attached to the current state. The trailing direct flag assignment
of the source (a no-op, since created actions are already unexplored) is
modelled by the final dictModify. -/
def processCandidates (stKey : String) :
    List ConcreteAction → AppKnowledge → Nat → Option (AppKnowledge × Nat)
  | [], K, gen => some (K, gen)
  | ca :: rest, K, gen =>
    let r := action_matches_existing ca K.abstract_actions
    let K := { K with abstract_actions := r.2 }
    if r.1 then processCandidates stKey rest K gen
    else
      match create_abstract_action ca gen with
      | none => none
      | some (aa, gen) =>
        let aa := { aa with source_abs_state := some stKey }
        let K := K.register_action aa
        let K := { K with
          abstract_states := dictModify K.abstract_states stKey
            (fun st => { st with actions := setAdd st.actions aa.action_id }) }
        let K := { K with
          abstract_actions := dictModify K.abstract_actions aa.action_id
            (fun a => { a with exploration_flag := .unexplored }) }
        processCandidates stKey rest K gen

/-- The per-cluster mutation of update_knowledge step 2 on a state match:
append the snapshot, fill an empty page description, union-merge the
element groups. -/
def clusterMerge (snap : Snapshot) (st : AbstractState) : AbstractState :=
  let st := { st with concrete_states := st.concrete_states ++ [snap] }
  let st :=
    if st.page_description = "" then
      { st with page_description := snap.page_description }
    else st
  { st with element_groups := mergeGroups st.element_groups snap.element_groups }

/-- Step 2 of KnowledgeMaintainer.update_knowledge: resolve the new
snapshot to an abstract state. On a match, append the snapshot to the
cluster, fill an empty page description, and union-merge element groups;
on a miss, create the state keyed by the signature and seed description
and groups from the snapshot. Returns the state entry key. -/
def updateStates (O : Oracles) (K : AppKnowledge) (c : Cache)
    (snap : Snapshot) (gen : Nat) : AppKnowledge × Cache × String × Nat :=
  let sig := signature O.hash snap
  match match_state O K c snap with
  | (some stKey, c) =>
    ({ K with
       abstract_states := dictModify K.abstract_states stKey (clusterMerge snap) },
     c, stKey, gen)
  | (none, c) =>
    let r := K.get_or_create_state sig gen
    ({ r.2.1 with
       abstract_states := dictModify r.2.1.abstract_states r.1 (fun st =>
         { st with
           concrete_states := st.concrete_states ++ [snap],
           page_description := snap.page_description,
           element_groups := snap.element_groups }) },
     c, r.1, r.2.2)

/-- Step 4 of KnowledgeMaintainer.update_knowledge: resolve the previous
state and the executed action; mark it explored, override to ineffective
when the state did not change, and add the directed edge (non-ineffective)
or prune the edge between the two resolved states (ineffective). Any
resolution failure is silently skipped. -/
def updatePrev (O : Oracles) (K : AppKnowledge) (c : Cache) (ps : Snapshot)
    (pa : ConcreteAction) (newKey : String) : AppKnowledge × Cache :=
  match match_state O K c ps with
  | (none, c) => (K, c)
  | (some prevKey, c) =>
    match match_abstract_action K pa with
    | none => (K, c)
    | some aid =>
      let K := K.update_action_flag aid .explored
      let K :=
        if prevKey = newKey then K.update_action_flag aid .ineffective else K
      match dictLookup K.abstract_actions aid with
      | none => (K, c)
      | some a =>
        if a.exploration_flag ≠ .ineffective then
          (K.aig_add_edge prevKey aid newKey, c)
        else
          ({ K with aig := K.aig.remove_edge prevKey newKey aid }, c)

/-- KnowledgeMaintainer.update_knowledge: append the raw-trace triple,
merge the new snapshot into the abstract states, process the candidate
actions of the new state (cached grouped_actions when present, the element
grouper otherwise), and finally process the previous step when both the
previous snapshot and the previous concrete action are present. none
models an uncaught exception (an invalid candidate action type). -/
def update_knowledge (O : Oracles) (K : AppKnowledge) (c : Cache) (gen : Nat)
    (prev_snap : Option Snapshot) (prev_act : Option ConcreteAction)
    (new_snap : Snapshot) : Option (AppKnowledge × Cache × Nat) :=
  let K := K.add_raw_trace_item prev_snap prev_act new_snap
  let r := updateStates O K c new_snap gen
  let K := r.1
  let c := r.2.1
  let newKey := r.2.2.1
  let gen := r.2.2.2
  let cas :=
    match new_snap.grouped_actions with
    | some l => l
    | none => O.grouper new_snap
  match processCandidates newKey cas K gen with
  | none => none
  | some (K, gen) =>
    match prev_snap, prev_act with
    | some ps, some pa =>
      let r := updatePrev O K c ps pa newKey
      some (r.1, r.2, gen)
    | _, _ => some (K, c, gen)

/-- Code-point lexicographic string comparison on the underlying character
lists; models the Python string comparison used by list.sort. -/
def strLeAux : List Char → List Char → Bool
  | [], _ => true
  | _ :: _, [] => false
  | c :: cs, d :: ds =>
    if c.toNat < d.toNat then true
    else if c.toNat = d.toNat then strLeAux cs ds
    else false

/-- Code-point lexicographic order on strings (Python string ≤). -/
def strLe (a b : String) : Bool := strLeAux a.toList b.toList

/-- Stable insertion step: the new element goes after existing elements
that compare less-or-equal, as Python stable sort keeps ties in order. -/
def insertByActionId (a : AbstractAction) :
    List AbstractAction → List AbstractAction
  | [] => [a]
  | b :: bs =>
    if strLe b.action_id a.action_id then b :: insertByActionId a bs
    else a :: b :: bs

/-- Stable sort by action id, modelling candidates.sort with the id key. -/
def sortByActionId : List AbstractAction → List AbstractAction
  | [] => []
  | a :: as_ => insertByActionId a (sortByActionId as_)

/-- The unexplored actions available on the given current state (the
state's actions dict resolved through the arena), empty when the state id
is absent; mirrors the candidates list of ActionSelector.select_action. -/
def local_candidates (K : AppKnowledge) (current_state_id : Option String) :
    List AbstractAction :=
  match current_state_id with
  | some sid =>
    match dictLookup K.abstract_states sid with
    | some st =>
      (st.actions.filterMap (dictLookup K.abstract_actions)).filter
        (fun a => a.exploration_flag = .unexplored)
    | none => []
  | none => []

/-- The unexplored actions across all registered actions; mirrors the
global_candidates list of ActionSelector.select_action. -/
def global_candidates (K : AppKnowledge) : List AbstractAction :=
  (K.abstract_actions.map (fun p => p.2)).filter
    (fun a => a.exploration_flag = .unexplored)

/-- ActionSelector.select_action: within the current state pick the
lowest-id unexplored action if any; otherwise pick the lowest-id
unexplored action across all registered actions; none when the latter set
is empty. The actions dict of a state is resolved through the arena. -/
def select_action (K : AppKnowledge) (current_state_id : Option String) :
    Option AbstractAction :=
  match (sortByActionId (local_candidates K current_state_id)).head? with
  | some a => some a
  | none => (sortByActionId (global_candidates K)).head?

/-- Directed adjacency of the interaction graph: targets of the edges
leaving u, in edge insertion order. -/
def adjD (edges : List Edge) (u : String) : List String :=
  (edges.filter (fun e => e.src = u)).map (fun e => e.dst)

/-- Undirected adjacency: neighbours in either direction. -/
def adjU (edges : List Edge) (u : String) : List String :=
  (edges.filter (fun e => e.src = u)).map (fun e => e.dst) ++
    (edges.filter (fun e => e.dst = u)).map (fun e => e.src)

/-- Fuel-bounded breadth-first search returning a node path from the start
to d, used to model the unweighted nx.shortest_path; each queue entry is a
node with the reversed path leading to it. -/
def bfsAux (adj : String → List String) (d : String) :
    Nat → List String → List (String × List String) → Option (List String)
  | _, _, [] => none
  | 0, _, _ :: _ => none
  | fuel + 1, visited, (n, pr) :: queue =>
    if n = d then some (n :: pr).reverse
    else if n ∈ visited then bfsAux adj d fuel visited queue
    else bfsAux adj d fuel (n :: visited)
      (queue ++ (adj n).map (fun m => (m, n :: pr)))

/-- Fuel sufficient for the breadth-first searches on a graph. -/
def bfsFuel (g : AbstractInteractionGraph) : Nat :=
  (g.nodes.length + 1) * (g.edges.length + 1) + 1

/-- Translate a directed node path into one action key per hop, taking the
first key of the multi-edge dict and skipping hops without edge data, as
AbstractInteractionGraph.shortest_path does. -/
def translatePath (g : AbstractInteractionGraph) : List String → List String
  | u :: v :: rest =>
    (match (g.edge_keys u v).head? with
     | some k => [k]
     | none => []) ++ translatePath g (v :: rest)
  | _ => []

/-- AbstractInteractionGraph.shortest_path, returning the action keys
along an unweighted shortest path; the NetworkXNoPath exception is caught
and yields the empty list, while a missing source or target node raises
NodeNotFound, which the source does not catch: that is the outer none. -/
def AbstractInteractionGraph.shortest_path (g : AbstractInteractionGraph)
    (src dst : String) : Option (List String) :=
  if src ∈ g.nodes ∧ dst ∈ g.nodes then
    match bfsAux (adjD g.edges) dst (bfsFuel g) [] [(src, [])] with
    | none => some []
    | some nodesPath => some (translatePath g nodesPath)
  else none

/-- PathFinder.prune_ineffective_edges: drop every edge whose payload
action is flagged ineffective (the payload is the arena action stored
under the edge key; an unregistered key never occurs on reachable
knowledge and is kept). -/
def prune_ineffective_edges (K : AppKnowledge) : AppKnowledge :=
  { K with aig := { K.aig with edges := K.aig.edges.filter (fun e =>
      match dictLookup K.abstract_actions e.key with
      | some a => decide (a.exploration_flag ≠ .ineffective)
      | none => true) } }

/-- Translate an undirected node path into action keys, looking up the
multi-edge dict in the forward direction first and falling back to the
reverse direction, skipping hops without data. -/
def translateUndir (g : AbstractInteractionGraph) : List String → List String
  | u :: v :: rest =>
    (let ks := g.edge_keys u v
     let ks := if ks = [] then g.edge_keys v u else ks
     match ks.head? with
     | some k => [k]
     | none => []) ++ translateUndir g (v :: rest)
  | _ => []

/-- PathFinder.bfs_any_path: breadth-first search over the undirected view
of the graph; every exception (including missing nodes) is caught and
yields the empty list. -/
def bfs_any_path (K : AppKnowledge) (src dst : String) : List String :=
  if src ∈ K.aig.nodes ∧ dst ∈ K.aig.nodes then
    match bfsAux (adjU K.aig.edges) dst (bfsFuel K.aig) [] [(src, [])] with
    | none => []
    | some nodesPath => translateUndir K.aig nodesPath
  else []

/-- The retry loop of PathFinder.find_path: per attempt, try the directed
shortest path; on failure prune ineffective edges (mutating the knowledge)
and try the undirected fallback on the pruned graph; give up with the
empty list when the attempts are exhausted. none models the uncaught
NodeNotFound of the directed search. The pruned knowledge is returned
with the result because the source mutates it in place. -/
def findPathLoop (curKey tgtKey : String) :
    Nat → AppKnowledge → Option (List String × AppKnowledge)
  | 0, K => some ([], K)
  | n + 1, K =>
    match K.aig.shortest_path curKey tgtKey with
    | none => none
    | some path =>
      if path ≠ [] then some (path, K)
      else
        let K := prune_ineffective_edges K
        let bfs := bfs_any_path K curKey tgtKey
        if bfs ≠ [] then some (bfs, K)
        else findPathLoop curKey tgtKey n K

/-- PathFinder.find_path: fail immediately with the empty list when the
target action has no recorded source state; otherwise run up to max_retry
attempts towards that source state. The result path is a list of action
ids (arena keys of the returned action objects). -/
def find_path (max_retry : Nat) (K : AppKnowledge) (currentKey : String)
    (target_action : AbstractAction) : Option (List String × AppKnowledge) :=
  match target_action.source_abs_state with
  | none => some ([], K)
  | some tgtKey => findPathLoop currentKey tgtKey max_retry K

/-- PathFinder.path_to_state: empty for equal states, the directed
shortest path otherwise (source equality on the dataclass reduces to
state-id equality because distinct states have distinct uuids). -/
def path_to_state (K : AppKnowledge) (srcKey dstKey : String) :
    Option (List String) :=
  if srcKey = dstKey then some []
  else K.aig.shortest_path srcKey dstKey

/-- One abstract_states entry of the persisted knowledge snapshot. -/
structure StateJson where
  repr_signature : String
  actions : List String
  page_desc : String
  element_groups : List ElementGroup
deriving Repr

/-- One abstract_actions entry of the persisted knowledge snapshot. -/
structure ActionJson where
  action_type : String
  flag : String
  src : Option String
  dst : Option String
  elements : List String
  function : String
deriving Repr

/-- The persisted knowledge snapshot produced by AppKnowledge.to_json. The
raw_trace field of the source is a base64-encoded json dump; that encoding
is an external bijection on trace items and is modelled as the item list
itself. -/
structure KnowledgeJson where
  abstract_states : List (String × StateJson)
  abstract_actions : List (String × ActionJson)
  edges : List Edge
  unexplored : List String
  raw_trace : List RawTraceItem
deriving Repr

/-- AppKnowledge.to_json. -/
def AppKnowledge.to_json (K : AppKnowledge) : KnowledgeJson :=
  { abstract_states := K.abstract_states.map (fun p =>
      (p.1,
       { repr_signature := p.2.repr_signature,
         actions := p.2.actions,
         page_desc := p.2.page_description,
         element_groups := p.2.element_groups })),
    abstract_actions := K.abstract_actions.map (fun p =>
      (p.1,
       { action_type := p.2.action_type.value,
         flag := p.2.exploration_flag.value,
         src := p.2.source_abs_state,
         dst := p.2.target_abs_state,
         elements := p.2.actual_elements.map (fun e => e.node_id),
         function := p.2.function_desc })),
    edges := K.aig.edges,
    unexplored := K.unexplored_action_ids,
    raw_trace := K.raw_trace }

/-- The state-rebuilding loop of AppKnowledge.from_json: clusters are not
persisted, and the actions dict of each state starts empty (it is
re-populated from the edges only). -/
def fromJsonStates (l : List (String × StateJson)) (K : AppKnowledge) :
    AppKnowledge :=
  l.foldl (fun K p =>
    let st : AbstractState :=
      { state_id := p.1,
        repr_signature := p.2.repr_signature,
        page_description := p.2.page_desc,
        element_groups := p.2.element_groups }
    { K with abstract_states := dictInsert K.abstract_states p.1 st }) K

/-- The action-rebuilding loop of AppKnowledge.from_json; none models the
ValueError of an unknown enum value. Source and target back-pointers are
not restored here (they are re-established by the edge loop only). -/
def fromJsonActions : List (String × ActionJson) → AppKnowledge →
    Option AppKnowledge
  | [], K => some K
  | p :: rest, K =>
    match ActionType.ofString p.2.action_type, ExplorationFlag.ofString p.2.flag with
    | some ty, some fl =>
      let a : AbstractAction :=
        { action_id := p.1,
          action_type := ty,
          actual_elements := p.2.elements.map (fun eid => UIElement.mk eid ""),
          exploration_flag := fl,
          function_desc := p.2.function }
      fromJsonActions rest
        { K with abstract_actions := dictInsert K.abstract_actions p.1 a }
    | _, _ => none

/-- The edge-rebuilding loop of AppKnowledge.from_json: look up both
endpoint states and the keyed action (a missing entry raises KeyError,
modelled by none), insert the action id into the source state dict and
re-add the edge (which also restores the action back-pointers). -/
def fromJsonEdges : List Edge → AppKnowledge → Option AppKnowledge
  | [], K => some K
  | e :: rest, K =>
    if dictContains K.abstract_states e.src ∧ dictContains K.abstract_states e.dst ∧
        dictContains K.abstract_actions e.key then
      let upd := fun (st : AbstractState) => { st with actions := setAdd st.actions e.key }
      let K := { K with abstract_states := dictModify K.abstract_states e.src upd }
      fromJsonEdges rest (K.aig_add_edge e.src e.key e.dst)
    else none

/-- AppKnowledge.from_json: rebuild states, actions, edges (with their
state-action links and back-pointers), the unexplored index and the raw
trace; none models an uncaught KeyError or ValueError. The Python set
constructor on the unexplored list is modelled by first-occurrence
deduplication. -/
def AppKnowledge.from_json (j : KnowledgeJson) : Option AppKnowledge :=
  match fromJsonActions j.abstract_actions
      (fromJsonStates j.abstract_states emptyKnowledge) with
  | none => none
  | some K =>
    match fromJsonEdges j.edges K with
    | none => none
    | some K =>
      some { K with
        unexplored_action_ids := j.unexplored.dedup,
        raw_trace := j.raw_trace }

-- ### Concrete data used by witnesses and counterexamples ###

/-- Oracles with the identity as hash, no equivalence oracle configured
and a grouper that yields no candidates; used for concrete evaluations. -/
def oracleId : Oracles := { hash := fun s => s, equiv := none, grouper := fun _ => [] }

/-- A concrete click candidate on element e1. -/
def caE1 : ConcreteAction := { action_type := "click", element_id := "e1" }

/-- A concrete snapshot at route x carrying the cached candidate list. -/
def snapX : Snapshot := { url := some "http://a/x", grouped_actions := some [caE1] }

/-- A concrete snapshot at route y with no candidates. -/
def snapY : Snapshot := { url := some "http://a/y", grouped_actions := some [] }

/-- Bootstrap ingestion of snapX into empty knowledge. -/
def kStep1 : Option (AppKnowledge × Cache × Nat) :=
  update_knowledge oracleId emptyKnowledge [] 0 none none snapX

/-- Execute e1 from state X, land on state Y. -/
def kStep2 : Option (AppKnowledge × Cache × Nat) :=
  kStep1.bind (fun r => update_knowledge oracleId r.1 r.2.1 r.2.2 (some snapX) (some caE1) snapY)

/-- Execute e1 from state X again, land back on state X: the action is
flagged ineffective while its old X-to-Y edge stays in the graph. -/
def kStep3 : Option (AppKnowledge × Cache × Nat) :=
  kStep2.bind (fun r => update_knowledge oracleId r.1 r.2.1 r.2.2 (some snapX) (some caE1) snapX)

/-- The exploration flag of the single abstract action after kStep3. -/
def kStep3Flag : Option (Option ExplorationFlag) :=
  kStep3.map (fun r => (dictLookup r.1.abstract_actions "uuid-u").map
    (fun a => a.exploration_flag))

/-- The graph edges after kStep3. -/
def kStep3Edges : Option (List Edge) :=
  kStep3.map (fun r => r.1.aig.edges)

/-- A two-node graph with no edges. -/
def discK : AppKnowledge :=
  { aig := { nodes := ["a", "b"], edges := [] } }

/-- A target action whose recorded source state is the isolated node b. -/
def taSourceB : AbstractAction := { action_id := "x", source_abs_state := some "b" }

/-- A target action with no recorded source state. -/
def taNoSource : AbstractAction := { action_id := "x", source_abs_state := none }

/-- A concrete snapshot with a DOM tree, for signature evaluations. -/
def snapDom : Snapshot :=
  { url := some "http://h/p?q=1#frag",
    dom_tree := some (DomNode.node "html" [DomNode.node "body" [], DomNode.node "div" []]) }

/-- The unexplored-index invariant of the spec: the index holds exactly
the ids of registered actions whose flag is unexplored. -/
def unexploredInvariant (K : AppKnowledge) : Prop :=
  ∀ aid, aid ∈ K.unexplored_action_ids ↔
    ∃ a, dictLookup K.abstract_actions aid = some a ∧
      a.exploration_flag = ExplorationFlag.unexplored

/-- Knowledge reachable from the empty AppKnowledge by the two index
mutators; registered actions carry fresh ids (uuid collisions are assumed
impossible, as in the source). -/
inductive ReachableByMutators : AppKnowledge → Prop
  | empty : ReachableByMutators emptyKnowledge
  | register (K : AppKnowledge) (a : AbstractAction) :
      ReachableByMutators K →
      dictContains K.abstract_actions a.action_id = false →
      ReachableByMutators (K.register_action a)
  | setFlag (K : AppKnowledge) (aid : String) (f : ExplorationFlag) :
      ReachableByMutators K →
      ReachableByMutators (K.update_action_flag aid f)

/-- A concrete unexplored action used by witnesses. -/
def wAct : AbstractAction := { action_id := "a1" }

/-- A knowledge instance with one explored and two unexplored actions on
one state, for selector witnesses. -/
def selK : AppKnowledge :=
  { abstract_states :=
      [("s0", { state_id := "s0", actions := ["a3", "a2", "a1"] })],
    abstract_actions :=
      [("a3", { action_id := "a3" }),
       ("a2", { action_id := "a2" }),
       ("a1", { action_id := "a1", exploration_flag := ExplorationFlag.explored })],
    unexplored_action_ids := ["a3", "a2"] }

/-- Well-formedness used by the round-trip theorem: dict keys are unique
(Python dicts guarantee this), the multigraph holds no duplicate edge
triples, and every edge references existing states and a registered
action. All knowledge built by the maintainer satisfies this. -/
def wfForRoundtrip (K : AppKnowledge) : Prop :=
  (dictKeys K.abstract_states).Nodup ∧
  (dictKeys K.abstract_actions).Nodup ∧
  K.aig.edges.Nodup ∧
  (∀ e ∈ K.aig.edges, dictContains K.abstract_states e.src = true ∧
    dictContains K.abstract_states e.dst = true ∧
    dictContains K.abstract_actions e.key = true)

/-- A small well-formed knowledge instance for the round-trip witness. -/
def rtK : AppKnowledge :=
  { abstract_states :=
      [("s0", { state_id := "s0", repr_signature := "sig0" }),
       ("s1", { state_id := "s1", repr_signature := "sig1" })],
    abstract_actions :=
      [("a0", { action_id := "a0", exploration_flag := ExplorationFlag.explored,
                source_abs_state := some "s0", target_abs_state := some "s1" })],
    aig := { nodes := ["s0", "s1"], edges := [Edge.mk "s0" "s1" "a0"] },
    unexplored_action_ids := [] }

/-- The knowledge after kStep2, extracted from the option. -/
def k2K : AppKnowledge := (kStep2.map (fun r => r.1)).getD emptyKnowledge

/-- The abstract action uuid-u as it stands after kStep2. -/
def k2Act : AbstractAction :=
  { action_id := "uuid-u", action_type := ActionType.click,
    actual_elements := [UIElement.mk "e1" ""],
    exploration_flag := ExplorationFlag.explored,
    source_abs_state := some "uuid-", target_abs_state := some "uuid-uu" }

/-- A directed hop in the interaction graph: some edge from u to v. -/
def dirStep (E : List Edge) (u v : String) : Prop :=
  ∃ k, Edge.mk u v k ∈ E

/-- An undirected hop: a directed hop in either direction. -/
def undirStep (E : List Edge) (u v : String) : Prop :=
  dirStep E u v ∨ dirStep E v u

/-- Directed reachability over the edge list. -/
def DirConn (E : List Edge) (s d : String) : Prop :=
  Relation.ReflTransGen (dirStep E) s d

/-- Undirected connectivity over the edge list. -/
def UndirConn (E : List Edge) (s d : String) : Prop :=
  Relation.ReflTransGen (undirStep E) s d

/-- Written from the spec's words (refinement reference for match_state,
step 2): one cached pairwise decision — consult the cache keyed by
truncated signatures, otherwise ask the oracle and cache the verdict. -/
def decideEquivCached (eqo : Snapshot → Snapshot → Bool)
    (hash : String → String) (c : Cache) (ref snap : Snapshot) :
    Bool × Cache :=
  let key := (safe_sig hash ref, safe_sig hash snap)
  match cacheLookup c key with
  | some b => (b, c)
  | none => (eqo ref snap, cacheInsert c key (eqo ref snap))

/-- Written from the spec's words: compare the snapshot against the given
representative snapshots in order, stopping at the first affirmative
cached-or-fresh decision. -/
def scanRefsDescribed (eqo : Snapshot → Snapshot → Bool)
    (hash : String → String) (snap : Snapshot) :
    List Snapshot → Cache → Bool × Cache
  | [], c => (false, c)
  | r :: rs, c =>
    let rc := decideEquivCached eqo hash c r snap
    if rc.1 then (true, rc.2) else scanRefsDescribed eqo hash snap rs rc.2

/-- Written from the spec's words: for each candidate state in order,
compare the snapshot against up to three representative snapshots from the
state's cluster and return the first state with an affirmative match. -/
def scanStatesDescribed (eqo : Snapshot → Snapshot → Bool)
    (hash : String → String) (snap : Snapshot) :
    List (String × AbstractState) → Cache → Option String × Cache
  | [], c => (none, c)
  | (sid, st) :: rest, c =>
    let rc := scanRefsDescribed eqo hash snap (st.concrete_states.take 3) c
    if rc.1 then (some sid, rc.2) else scanStatesDescribed eqo hash snap rest rc.2

/-- Written from the spec's words: resolution order of match_state —
first an exact stored-signature match, then (only when the semantic
equivalence oracle is configured) the cached oracle scan over candidate
states, otherwise none. -/
def matchStateDescribed (O : Oracles) (K : AppKnowledge) (c : Cache)
    (snap : Snapshot) : Option String × Cache :=
  match K.abstract_states.find? (fun p =>
      p.2.repr_signature = signature O.hash snap) with
  | some p => (some p.1, c)
  | none =>
    match O.equiv with
    | none => (none, c)
    | some eqo => scanStatesDescribed eqo O.hash snap K.abstract_states c

/-- A candidate concrete action is recognisable against an action table:
some registered action has the same type string and already holds the
candidate's element id. Exactly the match condition that the first
(element-id) check of action_matches_existing tests, and the condition
that each of its merge branches establishes. -/
def hasMatch (A : List (String × AbstractAction)) (ca : ConcreteAction) : Prop :=
  ∃ p ∈ A, p.2.action_type.value = ca.action_type ∧
    ca.element_id ∈ p.2.actual_elements.map (fun e => e.node_id)

/-- All ids the counter can still draw are absent from the table. -/
def freshFor (gen : Nat) (A : List (String × AbstractAction)) : Prop :=
  ∀ n, gen ≤ n → uuidGen n ∉ dictKeys A

/-- The abstract action that step 3 of update_knowledge registers for an
unmatched candidate: the created action with the current state recorded
as its source (proof-side abbreviation of the literal the code builds). -/
def createdAction (stKey : String) (ca : ConcreteAction) (ty : ActionType)
    (gen : Nat) : AbstractAction :=
  { action_id := uuidGen gen,
    action_type := ty,
    actual_elements := UIElement.mk ca.element_id ca.xpath ::
      (ca.elements.drop 1).map (fun eid => UIElement.mk eid ""),
    exploration_flag := ExplorationFlag.unexplored,
    function_desc := ca.function,
    source_abs_state := some stKey }

/-- The concrete outcome of a first ingestion of snapX into empty
knowledge, used to exercise the re-ingestion theorem. -/
def wRun1 : AppKnowledge × Cache × Nat :=
  (update_knowledge oracleId emptyKnowledge [] 0 none none snapX).getD
    (emptyKnowledge, [], 0)

-- ### Theorems ###

-- basic dictionary and set lemmas ------------------------------------

theorem dictLookup_cons {α : Type} (p : String × α) (l : List (String × α))
    (k : String) :
    dictLookup (p :: l) k = if p.1 = k then some p.2 else dictLookup l k := by
  by_cases h : p.1 = k <;> simp [dictLookup, List.find?_cons, h]

theorem dictContains_false_iff {α : Type} (l : List (String × α))
    (k : String) : dictContains l k = false ↔ ∀ p ∈ l, p.1 ≠ k := by
  simp [dictContains, List.any_eq_false]

theorem dictContains_false_lookup {α : Type} (l : List (String × α))
    (k : String) (h : dictContains l k = false) : dictLookup l k = none := by
  rw [dictContains_false_iff] at h
  have : l.find? (fun p => p.1 = k) = none := by
    rw [List.find?_eq_none]
    intro p hp
    simpa using h p hp
  simp [dictLookup, this]

theorem dictLookup_append {α : Type} (l₁ l₂ : List (String × α)) (k : String) :
    dictLookup (l₁ ++ l₂) k =
      match dictLookup l₁ k with
      | some v => some v
      | none => dictLookup l₂ k := by
  induction l₁ with
  | nil => simp [dictLookup]
  | cons p rest ih =>
    rw [List.cons_append, dictLookup_cons, dictLookup_cons]
    by_cases h : p.1 = k <;> simp [h, ih]

theorem dictLookup_insert_fresh {α : Type} (l : List (String × α))
    (k : String) (v : α) (h : dictContains l k = false) :
    dictLookup (dictInsert l k v) k = some v := by
  unfold dictInsert
  rw [h]
  simp only [Bool.false_eq_true, if_false]
  rw [dictLookup_append, dictContains_false_lookup l k h]
  simp [dictLookup, List.find?]

theorem dictLookup_insert_fresh_other {α : Type} (l : List (String × α))
    (k k2 : String) (v : α) (h : dictContains l k = false) (hne : k ≠ k2) :
    dictLookup (dictInsert l k v) k2 = dictLookup l k2 := by
  unfold dictInsert
  rw [h]
  simp only [Bool.false_eq_true, if_false]
  rw [dictLookup_append]
  have : dictLookup [(k, v)] k2 = none := by
    simp [dictLookup, List.find?, hne]
  rw [this]
  cases dictLookup l k2 <;> rfl

theorem dictModify_cons {α : Type} (p : String × α) (l : List (String × α))
    (k : String) (f : α → α) :
    dictModify (p :: l) k f =
      (if p.1 = k then (p.1, f p.2) else p) :: dictModify l k f := rfl

theorem dictLookup_modify_self {α : Type} (l : List (String × α))
    (k : String) (f : α → α) :
    dictLookup (dictModify l k f) k = (dictLookup l k).map f := by
  induction l with
  | nil => rfl
  | cons p rest ih =>
    rw [dictModify_cons, dictLookup_cons, dictLookup_cons]
    by_cases h : p.1 = k
    · rw [if_pos h, if_pos h, if_pos h]
      rfl
    · rw [if_neg h, if_neg h, if_neg h]
      exact ih

theorem dictLookup_modify_other {α : Type} (l : List (String × α))
    (k k2 : String) (f : α → α) (hne : k ≠ k2) :
    dictLookup (dictModify l k f) k2 = dictLookup l k2 := by
  induction l with
  | nil => rfl
  | cons p rest ih =>
    rw [dictModify_cons, dictLookup_cons, dictLookup_cons]
    by_cases h : p.1 = k
    · have h2 : ¬ p.1 = k2 := by rw [h]; exact hne
      rw [if_pos h]
      have : ¬ (p.1, f p.2).1 = k2 := h2
      rw [if_neg this, if_neg h2]
      exact ih
    · rw [if_neg h]
      by_cases h2 : p.1 = k2
      · rw [if_pos h2, if_pos h2]
      · rw [if_neg h2, if_neg h2]
        exact ih

theorem dictKeys_modify {α : Type} (l : List (String × α)) (k : String)
    (f : α → α) : dictKeys (dictModify l k f) = dictKeys l := by
  induction l with
  | nil => rfl
  | cons p rest ih =>
    rw [dictModify_cons, dictKeys, dictKeys, List.map_cons, List.map_cons]
    by_cases h : p.1 = k
    · rw [if_pos h]
      simpa [dictKeys, h] using ih
    · rw [if_neg h]
      simpa [dictKeys] using ih

theorem mem_setAdd (s : List String) (x y : String) :
    y ∈ setAdd s x ↔ y ∈ s ∨ y = x := by
  unfold setAdd
  split
  · rename_i h
    constructor
    · exact fun hy => Or.inl hy
    · rintro (hy | rfl)
      · exact hy
      · exact h
  · simp [List.mem_append]

theorem mem_setDiscard (s : List String) (x y : String) :
    y ∈ setDiscard s x ↔ y ∈ s ∧ y ≠ x := by
  simp [setDiscard, List.mem_filter]


-- C8 ------------------------------------------------------------------

/-- C8: signature is a pure deterministic function of the snapshot: two
calls on identical input yield identical output; the embedding is a total
function with no effects, mirroring that the source computes the hash
from the snapshot alone, with no I/O, no mutation and no external calls. -/
theorem signature_pure_deterministic (hash : String → String)
    (s₁ s₂ : Snapshot) (h : s₁ = s₂) :
    signature hash s₁ = signature hash s₂ :=
  congrArg (signature hash) h

/-- Witness for C8 at a concrete snapshot. -/
theorem signature_pure_deterministic_witness :
    signature (fun s => s) snapDom = signature (fun s => s) snapDom :=
  signature_pure_deterministic (fun s => s) snapDom snapDom rfl

-- C10 -----------------------------------------------------------------

/-- C10: every add_edge call unconditionally overwrites the action's
source and target back-pointers with the given source and target states;
consequently, after traversing the action again from a different source,
only the most recent pair survives (and find_path, which reads
source_abs_state as its destination, routes to that most recent source). -/
theorem add_edge_overwrites_backpointers (K : AppKnowledge)
    (s1 d1 s2 d2 aid : String) (a : AbstractAction)
    (h : dictLookup K.abstract_actions aid = some a) :
    dictLookup (K.aig_add_edge s1 aid d1).abstract_actions aid =
      some { a with source_abs_state := some s1, target_abs_state := some d1 } ∧
    dictLookup ((K.aig_add_edge s1 aid d1).aig_add_edge s2 aid d2).abstract_actions aid =
      some { a with source_abs_state := some s2, target_abs_state := some d2 } := by
  unfold AppKnowledge.aig_add_edge
  simp only [dictLookup_modify_self, h, Option.map_some]
  exact ⟨rfl, rfl⟩

/-- Witness for C10 on a concrete registered action. -/
theorem add_edge_overwrites_backpointers_witness :
    dictLookup ((emptyKnowledge.register_action wAct).aig_add_edge "s1" "a1" "d1").abstract_actions "a1" =
      some { wAct with source_abs_state := some "s1", target_abs_state := some "d1" } ∧
    dictLookup (((emptyKnowledge.register_action wAct).aig_add_edge "s1" "a1" "d1").aig_add_edge "s2" "a1" "d2").abstract_actions "a1" =
      some { wAct with source_abs_state := some "s2", target_abs_state := some "d2" } :=
  add_edge_overwrites_backpointers (emptyKnowledge.register_action wAct)
    "s1" "d1" "s2" "d2" "a1" wAct (by decide)

-- C1 ------------------------------------------------------------------

/-- Unfolding lemma: update_action_flag on a dangling id is the identity. -/
theorem update_action_flag_none (K : AppKnowledge) (aid : String)
    (f : ExplorationFlag) (h : dictLookup K.abstract_actions aid = none) :
    K.update_action_flag aid f = K := by
  unfold AppKnowledge.update_action_flag
  rw [h]

/-- Unfolding lemma: update_action_flag on a registered action rewrites
its flag and adjusts the unexplored index by the flag transition. -/
theorem update_action_flag_some (K : AppKnowledge) (aid : String)
    (f : ExplorationFlag) (a : AbstractAction)
    (h : dictLookup K.abstract_actions aid = some a) :
    K.update_action_flag aid f =
      { K with
        abstract_actions := dictModify K.abstract_actions aid
          (fun b => { b with exploration_flag := f }),
        unexplored_action_ids :=
          (fun u => if a.exploration_flag ≠ ExplorationFlag.unexplored ∧
              f = ExplorationFlag.unexplored then setAdd u aid else u)
            (if a.exploration_flag = ExplorationFlag.unexplored ∧
                f ≠ ExplorationFlag.unexplored then
              setDiscard K.unexplored_action_ids aid
            else K.unexplored_action_ids) } := by
  unfold AppKnowledge.update_action_flag
  rw [h]

/-- C1: starting from the empty AppKnowledge, any sequence of the two
mutators register_action (with fresh ids) and update_action_flag keeps
the unexplored index equal to the set of registered action ids whose
exploration flag is unexplored. -/
theorem mutators_preserve_unexplored_index (K : AppKnowledge)
    (h : ReachableByMutators K) : unexploredInvariant K := by
  induction h with
  | empty =>
    intro aid
    simp [emptyKnowledge, dictLookup]
  | register K a _ hfresh ih =>
    intro aid
    unfold AppKnowledge.register_action
    simp only []
    by_cases heq : aid = a.action_id
    · subst heq
      rw [dictLookup_insert_fresh _ _ _ hfresh]
      by_cases hf : a.exploration_flag = ExplorationFlag.unexplored
      · rw [if_pos hf, mem_setAdd]
        constructor
        · intro _
          exact ⟨a, rfl, hf⟩
        · intro _
          exact Or.inr rfl
      · rw [if_neg hf]
        constructor
        · intro hmem
          obtain ⟨b, hb, -⟩ := (ih a.action_id).mp hmem
          rw [dictContains_false_lookup _ _ hfresh] at hb
          cases hb
        · rintro ⟨b, hb, hbf⟩
          injection hb with hb2
          subst hb2
          exact absurd hbf hf
    · have hne : a.action_id ≠ aid := fun hh => heq hh.symm
      rw [dictLookup_insert_fresh_other _ _ _ _ hfresh hne]
      by_cases hf : a.exploration_flag = ExplorationFlag.unexplored
      · rw [if_pos hf, mem_setAdd]
        constructor
        · rintro (hmem | hh)
          · exact (ih aid).mp hmem
          · exact absurd hh heq
        · intro hx
          exact Or.inl ((ih aid).mpr hx)
      · rw [if_neg hf]
        exact ih aid
  | setFlag K aid0 f _ ih =>
    intro aid
    cases hl : dictLookup K.abstract_actions aid0 with
    | none =>
      rw [update_action_flag_none K aid0 f hl]
      exact ih aid
    | some a =>
      rw [update_action_flag_some K aid0 f a hl]
      simp only []
      by_cases heq : aid = aid0
      · subst heq
        rw [dictLookup_modify_self, hl]
        by_cases hp : a.exploration_flag = ExplorationFlag.unexplored <;>
          by_cases hf : f = ExplorationFlag.unexplored
        · rw [if_neg (by simp [hp]), if_neg (by simp [hf])]
          constructor
          · intro _
            exact ⟨{ a with exploration_flag := f }, rfl, hf⟩
          · intro _
            exact (ih aid).mpr ⟨a, hl, hp⟩
        · rw [if_neg (by simp [hf]), if_pos ⟨hp, hf⟩, mem_setDiscard]
          constructor
          · rintro ⟨-, hcon⟩
            exact absurd rfl hcon
          · rintro ⟨b, hb, hbf⟩
            injection hb with hb2
            subst hb2
            exact absurd hbf hf
        · rw [if_pos ⟨hp, hf⟩, mem_setAdd]
          constructor
          · intro _
            exact ⟨{ a with exploration_flag := f }, rfl, hf⟩
          · intro _
            exact Or.inr rfl
        · rw [if_neg (by simp [hf]), if_neg (by simp [hp])]
          constructor
          · intro hmem
            obtain ⟨b, hb, hbf⟩ := (ih aid).mp hmem
            rw [hl] at hb
            injection hb with hb2
            subst hb2
            exact absurd hbf hp
          · rintro ⟨b, hb, hbf⟩
            injection hb with hb2
            subst hb2
            exact absurd hbf hf
      · have hne : aid0 ≠ aid := fun hh => heq hh.symm
        rw [dictLookup_modify_other _ _ _ _ hne]
        have step1 : ∀ u : List String,
            aid ∈ (if a.exploration_flag ≠ ExplorationFlag.unexplored ∧
              f = ExplorationFlag.unexplored then setAdd u aid0 else u) ↔ aid ∈ u := by
          intro u
          split
          · rw [mem_setAdd]
            exact ⟨fun hh => hh.resolve_right heq, fun hh => Or.inl hh⟩
          · exact Iff.rfl
        have step2 :
            aid ∈ (if a.exploration_flag = ExplorationFlag.unexplored ∧
              f ≠ ExplorationFlag.unexplored then
                setDiscard K.unexplored_action_ids aid0
              else K.unexplored_action_ids) ↔
              aid ∈ K.unexplored_action_ids := by
          split
          · rw [mem_setDiscard]
            exact ⟨fun hh => hh.1, fun hh => ⟨hh, heq⟩⟩
          · exact Iff.rfl
        rw [step1, step2]
        exact ih aid

/-- Witness for C1: register a fresh unexplored action on the empty
knowledge; its id lands in the index. -/
theorem mutators_preserve_unexplored_index_witness :
    "a1" ∈ (emptyKnowledge.register_action wAct).unexplored_action_ids :=
  ((mutators_preserve_unexplored_index (emptyKnowledge.register_action wAct)
    (ReachableByMutators.register emptyKnowledge wAct ReachableByMutators.empty
      (by decide))) "a1").mpr ⟨wAct, by decide, rfl⟩

-- C6 ------------------------------------------------------------------

theorem strLeAux_refl (cs : List Char) : strLeAux cs cs = true := by
  induction cs with
  | nil => rfl
  | cons c rest ih => simp [strLeAux, ih]

theorem strLe_refl (s : String) : strLe s s = true := strLeAux_refl s.toList

theorem strLeAux_total (cs ds : List Char) :
    strLeAux cs ds = true ∨ strLeAux ds cs = true := by
  induction cs generalizing ds with
  | nil => exact Or.inl rfl
  | cons c rest ih =>
    cases ds with
    | nil => exact Or.inr rfl
    | cons d tail =>
      rcases Nat.lt_trichotomy c.toNat d.toNat with hlt | heqn | hgt
      · refine Or.inl ?_
        unfold strLeAux
        rw [if_pos hlt]
      · rcases ih tail with h | h
        · refine Or.inl ?_
          unfold strLeAux
          rw [if_neg (by omega), if_pos heqn]
          exact h
        · refine Or.inr ?_
          unfold strLeAux
          rw [if_neg (by omega), if_pos heqn.symm]
          exact h
      · refine Or.inr ?_
        unfold strLeAux
        rw [if_pos hgt]

theorem strLe_total (a b : String) : strLe a b = true ∨ strLe b a = true :=
  strLeAux_total a.toList b.toList

theorem strLeAux_trans (as bs cs : List Char) (h1 : strLeAux as bs = true)
    (h2 : strLeAux bs cs = true) : strLeAux as cs = true := by
  induction as generalizing bs cs with
  | nil => rfl
  | cons a as2 ih =>
    cases bs with
    | nil => simp [strLeAux] at h1
    | cons b bs2 =>
      cases cs with
      | nil => simp [strLeAux] at h2
      | cons c cs2 =>
        unfold strLeAux at h1 h2 ⊢
        split at h1
        · rename_i hab
          split at h2
          · rename_i hbc
            rw [if_pos (by omega)]
          · split at h2
            · rename_i hbc hbce
              rw [if_pos (by omega)]
            · cases h2
        · split at h1
          · rename_i hab habe
            split at h2
            · rename_i hbc
              rw [if_pos (by omega)]
            · split at h2
              · rename_i hbc hbce
                rw [if_neg (by omega), if_pos (by omega)]
                exact ih bs2 cs2 h1 h2
              · cases h2
          · cases h1

theorem strLe_trans (a b c : String) (h1 : strLe a b = true)
    (h2 : strLe b c = true) : strLe a c = true :=
  strLeAux_trans a.toList b.toList c.toList h1 h2

theorem mem_insertByActionId (a x : AbstractAction) (l : List AbstractAction) :
    x ∈ insertByActionId a l ↔ x = a ∨ x ∈ l := by
  induction l with
  | nil => simp [insertByActionId]
  | cons b bs ih =>
    unfold insertByActionId
    split
    · simp only [List.mem_cons, ih]
      tauto
    · simp only [List.mem_cons]

theorem mem_sortByActionId (x : AbstractAction) (l : List AbstractAction) :
    x ∈ sortByActionId l ↔ x ∈ l := by
  induction l with
  | nil => simp [sortByActionId]
  | cons a as_ ih =>
    simp [sortByActionId, mem_insertByActionId, ih]

theorem pairwise_insertByActionId (a : AbstractAction)
    (l : List AbstractAction)
    (h : l.Pairwise (fun x y => strLe x.action_id y.action_id = true)) :
    (insertByActionId a l).Pairwise
      (fun x y => strLe x.action_id y.action_id = true) := by
  induction l with
  | nil => simp [insertByActionId]
  | cons b bs ih =>
    rw [List.pairwise_cons] at h
    unfold insertByActionId
    split
    · rename_i hba
      rw [List.pairwise_cons]
      constructor
      · intro y hy
        rw [mem_insertByActionId] at hy
        rcases hy with rfl | hy
        · exact hba
        · exact h.1 y hy
      · exact ih h.2
    · rename_i hba
      have hab : strLe a.action_id b.action_id = true := by
        rcases strLe_total a.action_id b.action_id with hh | hh
        · exact hh
        · exact absurd hh hba
      rw [List.pairwise_cons]
      constructor
      · intro y hy
        rcases List.mem_cons.mp hy with rfl | hy
        · exact hab
        · exact strLe_trans _ _ _ hab (h.1 y hy)
      · exact List.pairwise_cons.mpr ⟨h.1, h.2⟩

theorem pairwise_sortByActionId (l : List AbstractAction) :
    (sortByActionId l).Pairwise
      (fun x y => strLe x.action_id y.action_id = true) := by
  induction l with
  | nil => simp [sortByActionId]
  | cons a as_ ih => exact pairwise_insertByActionId a _ ih

theorem sortByActionId_head_min (l : List AbstractAction)
    (a : AbstractAction) (h : (sortByActionId l).head? = some a) :
    a ∈ l ∧ ∀ b ∈ l, strLe a.action_id b.action_id = true := by
  cases hs : sortByActionId l with
  | nil => rw [hs] at h; cases h
  | cons hd tl =>
    rw [hs] at h
    have h2 : hd = a := Option.some.inj h
    subst h2
    have hpw := pairwise_sortByActionId l
    rw [hs, List.pairwise_cons] at hpw
    constructor
    · exact (mem_sortByActionId hd l).mp (by rw [hs]; exact List.mem_cons_self _ _)
    · intro b hb
      have : b ∈ sortByActionId l := (mem_sortByActionId b l).mpr hb
      rw [hs] at this
      rcases List.mem_cons.mp this with rfl | hbt
      · exact strLe_refl _
      · exact hpw.1 b hbt

theorem sortByActionId_nil_iff (l : List AbstractAction) :
    sortByActionId l = [] ↔ l = [] := by
  cases l with
  | nil => simp [sortByActionId]
  | cons a as_ =>
    simp only [sortByActionId]
    constructor
    · intro h
      exfalso
      have : a ∈ insertByActionId a (sortByActionId as_) :=
        (mem_insertByActionId a a _).mpr (Or.inl rfl)
      rw [h] at this
      cases this
    · intro h
      cases h

theorem lookup_mem_values {α : Type} (l : List (String × α)) (k : String)
    (v : α) (h : dictLookup l k = some v) : v ∈ l.map (fun p => p.2) := by
  unfold dictLookup at h
  cases hf : l.find? (fun p => p.1 = k) with
  | none => rw [hf] at h; cases h
  | some p =>
    rw [hf] at h
    injection h with h
    subst h
    exact List.mem_map_of_mem _ (List.mem_of_find?_eq_some hf)

theorem local_subset_global (K : AppKnowledge) (cur : Option String)
    (a : AbstractAction) (h : a ∈ local_candidates K cur) :
    a ∈ global_candidates K := by
  unfold local_candidates at h
  unfold global_candidates
  rcases cur with _ | sid
  · cases h
  · simp only [] at h
    cases hst : dictLookup K.abstract_states sid with
    | none => rw [hst] at h; cases h
    | some st =>
      rw [hst] at h
      rw [List.mem_filter] at h ⊢
      refine ⟨?_, h.2⟩
      obtain ⟨aid, -, hl⟩ := List.mem_filterMap.mp h.1
      exact lookup_mem_values _ _ _ hl

/-- C6: select_action returns the lowest-id unexplored action of the
current state when one exists, otherwise the lowest-id unexplored action
among all registered actions, and returns none exactly when no registered
action is unexplored. -/
theorem select_action_spec (K : AppKnowledge) (cur : Option String) :
    (local_candidates K cur ≠ [] →
      ∃ a, select_action K cur = some a ∧ a ∈ local_candidates K cur ∧
        ∀ b ∈ local_candidates K cur, strLe a.action_id b.action_id = true) ∧
    (local_candidates K cur = [] → global_candidates K ≠ [] →
      ∃ a, select_action K cur = some a ∧ a ∈ global_candidates K ∧
        ∀ b ∈ global_candidates K, strLe a.action_id b.action_id = true) ∧
    (select_action K cur = none ↔ global_candidates K = []) := by
  refine ⟨?_, ?_, ?_⟩
  · intro hne
    cases hh : (sortByActionId (local_candidates K cur)).head? with
    | none =>
      rw [List.head?_eq_none_iff] at hh
      exact absurd ((sortByActionId_nil_iff _).mp hh) hne
    | some a =>
      obtain ⟨hmem, hmin⟩ := sortByActionId_head_min _ _ hh
      exact ⟨a, by unfold select_action; rw [hh], hmem, hmin⟩
  · intro hloc hne
    cases hh : (sortByActionId (global_candidates K)).head? with
    | none =>
      rw [List.head?_eq_none_iff] at hh
      exact absurd ((sortByActionId_nil_iff _).mp hh) hne
    | some a =>
      obtain ⟨hmem, hmin⟩ := sortByActionId_head_min _ _ hh
      refine ⟨a, ?_, hmem, hmin⟩
      unfold select_action
      rw [hloc]
      simpa [sortByActionId] using hh
  · constructor
    · intro hnone
      unfold select_action at hnone
      cases hh : (sortByActionId (local_candidates K cur)).head? with
      | some a => rw [hh] at hnone; cases hnone
      | none =>
        rw [hh] at hnone
        rw [List.head?_eq_none_iff] at hnone
        exact (sortByActionId_nil_iff _).mp hnone
    · intro hglob
      unfold select_action
      have hloc : local_candidates K cur = [] := by
        cases hl : local_candidates K cur with
        | nil => rfl
        | cons x xs =>
          exfalso
          have hx : x ∈ global_candidates K :=
            local_subset_global K cur x (by rw [hl]; exact List.mem_cons_self _ _)
          rw [hglob] at hx
          cases hx
      rw [hloc, hglob]
      rfl

/-- Witness for C6 on a state with one explored and two unexplored
actions: a2 has the lowest id among the unexplored ones and is selected. -/
theorem select_action_spec_witness :
    local_candidates selK (some "s0") ≠ [] ∧
    (∃ a, select_action selK (some "s0") = some a ∧
      a ∈ local_candidates selK (some "s0") ∧
      ∀ b ∈ local_candidates selK (some "s0"),
        strLe a.action_id b.action_id = true) :=
  ⟨by decide, (select_action_spec selK (some "s0")).1 (by decide)⟩

-- C2 ------------------------------------------------------------------

theorem dictContains_iff_mem {α : Type} (l : List (String × α)) (k : String) :
    dictContains l k = true ↔ k ∈ dictKeys l := by
  simp [dictContains, dictKeys, List.any_eq_true, List.mem_map]

theorem dictContains_eq_false_iff {α : Type} (l : List (String × α))
    (k : String) : dictContains l k = false ↔ k ∉ dictKeys l := by
  rw [← dictContains_iff_mem]
  cases dictContains l k <;> simp

theorem dictKeys_append {α : Type} (l₁ l₂ : List (String × α)) :
    dictKeys (l₁ ++ l₂) = dictKeys l₁ ++ dictKeys l₂ := by
  simp [dictKeys]

theorem dictInsert_fresh_eq {α : Type} (l : List (String × α)) (k : String)
    (v : α) (h : dictContains l k = false) :
    dictInsert l k v = l ++ [(k, v)] := by
  unfold dictInsert
  rw [h]
  simp

theorem dictLookup_map_values {α β : Type} (l : List (String × α))
    (g : String → α → β) (k : String) :
    dictLookup (l.map (fun p => (p.1, g p.1 p.2))) k =
      (l.find? (fun p => p.1 = k)).map (fun p => g p.1 p.2) := by
  induction l with
  | nil => rfl
  | cons p rest ih =>
    rw [List.map_cons, dictLookup_cons]
    by_cases h : p.1 = k
    · simp [List.find?_cons, h]
    · rw [if_neg h, List.find?_cons]
      simp only [h, decide_eq_true_eq]
      rw [ih]
      simp [h]

theorem fromJsonStates_eq (l : List (String × StateJson)) (K0 : AppKnowledge)
    (hfresh : ∀ p ∈ l, dictContains K0.abstract_states p.1 = false)
    (hnd : (l.map (fun p => p.1)).Nodup) :
    fromJsonStates l K0 =
      { K0 with abstract_states := K0.abstract_states ++ l.map (fun p =>
          (p.1, ({ state_id := p.1,
                   repr_signature := p.2.repr_signature,
                   page_description := p.2.page_desc,
                   element_groups := p.2.element_groups } : AbstractState))) } := by
  induction l generalizing K0 with
  | nil => simp [fromJsonStates]
  | cons p rest ih =>
    have hp : dictContains K0.abstract_states p.1 = false :=
      hfresh p (List.mem_cons_self _ _)
    have step : fromJsonStates (p :: rest) K0 =
        fromJsonStates rest
          { K0 with abstract_states := K0.abstract_states ++
              [(p.1, ({ state_id := p.1,
                        repr_signature := p.2.repr_signature,
                        page_description := p.2.page_desc,
                        element_groups := p.2.element_groups } : AbstractState))] } := by
      simp only [fromJsonStates, List.foldl_cons]
      rw [dictInsert_fresh_eq _ _ _ hp]
    rw [step, ih]
    · simp
    · intro q hq
      rw [dictContains_eq_false_iff, dictKeys_append]
      simp only [List.mem_append]
      rintro (hin | hin)
      · have hn := hfresh q (List.mem_cons_of_mem _ hq)
        rw [dictContains_eq_false_iff] at hn
        exact hn hin
      · simp only [dictKeys, List.map_cons, List.map_nil, List.mem_singleton] at hin
        rw [List.map_cons, List.nodup_cons] at hnd
        exact hnd.1 (hin ▸ List.mem_map_of_mem _ hq)
    · rw [List.map_cons] at hnd
      exact (List.nodup_cons.mp hnd).2

theorem fromJsonActions_eq (l : List (String × ActionJson)) (K0 : AppKnowledge)
    (hval : ∀ p ∈ l, (ActionType.ofString p.2.action_type).isSome ∧
      (ExplorationFlag.ofString p.2.flag).isSome)
    (hfresh : ∀ p ∈ l, dictContains K0.abstract_actions p.1 = false)
    (hnd : (l.map (fun p => p.1)).Nodup) :
    fromJsonActions l K0 =
      some { K0 with abstract_actions := K0.abstract_actions ++ l.map (fun p =>
        (p.1, ({ action_id := p.1,
                 action_type := (ActionType.ofString p.2.action_type).getD ActionType.click,
                 actual_elements := p.2.elements.map (fun eid => UIElement.mk eid ""),
                 exploration_flag := (ExplorationFlag.ofString p.2.flag).getD ExplorationFlag.unexplored,
                 function_desc := p.2.function } : AbstractAction))) } := by
  induction l generalizing K0 with
  | nil => simp [fromJsonActions]
  | cons p rest ih =>
    obtain ⟨hv1, hv2⟩ := hval p (List.mem_cons_self _ _)
    obtain ⟨ty, hty⟩ := Option.isSome_iff_exists.mp hv1
    obtain ⟨fl, hfl⟩ := Option.isSome_iff_exists.mp hv2
    have hp : dictContains K0.abstract_actions p.1 = false :=
      hfresh p (List.mem_cons_self _ _)
    have step : fromJsonActions (p :: rest) K0 =
        fromJsonActions rest
          { K0 with abstract_actions := K0.abstract_actions ++
              [(p.1, ({ action_id := p.1,
                        action_type := ty,
                        actual_elements := p.2.elements.map (fun eid => UIElement.mk eid ""),
                        exploration_flag := fl,
                        function_desc := p.2.function } : AbstractAction))] } := by
      simp only [fromJsonActions, hty, hfl]
      rw [dictInsert_fresh_eq _ _ _ hp]
    rw [step, ih]
    · simp only [List.map_cons]
      rw [hty, hfl]
      simp
    · exact fun q hq => hval q (List.mem_cons_of_mem _ hq)
    · intro q hq
      rw [dictContains_eq_false_iff, dictKeys_append]
      simp only [List.mem_append]
      rintro (hin | hin)
      · have hn := hfresh q (List.mem_cons_of_mem _ hq)
        rw [dictContains_eq_false_iff] at hn
        exact hn hin
      · simp only [dictKeys, List.map_cons, List.map_nil, List.mem_singleton] at hin
        rw [List.map_cons, List.nodup_cons] at hnd
        exact hnd.1 (hin ▸ List.mem_map_of_mem _ hq)
    · rw [List.map_cons] at hnd
      exact (List.nodup_cons.mp hnd).2

theorem edge_eta (e : Edge) : Edge.mk e.src e.dst e.key = e := rfl

theorem lookup_flag_modify (A : List (String × AbstractAction)) (k : String)
    (f : AbstractAction → AbstractAction)
    (hf : ∀ a, (f a).exploration_flag = a.exploration_flag) (aid : String) :
    (dictLookup (dictModify A k f) aid).map (fun a => a.exploration_flag) =
      (dictLookup A aid).map (fun a => a.exploration_flag) := by
  by_cases h : k = aid
  · subst h
    rw [dictLookup_modify_self]
    cases dictLookup A k <;> simp [hf]
  · rw [dictLookup_modify_other _ _ _ _ h]


theorem add_state_edges (g : AbstractInteractionGraph) (s : String) :
    (g.add_state s).edges = g.edges := by
  unfold AbstractInteractionGraph.add_state
  split <;> rfl

theorem add_state_preserves_nodes_mem (g : AbstractInteractionGraph)
    (s x : String) (h : x ∈ g.nodes) : x ∈ (g.add_state s).nodes := by
  unfold AbstractInteractionGraph.add_state
  split
  · exact h
  · exact List.mem_append_left _ h

theorem add_edge_raw_edges (g : AbstractInteractionGraph) (src dst key : String)
    (h : Edge.mk src dst key ∉ g.edges) :
    (g.add_edge_raw src dst key).edges = g.edges ++ [Edge.mk src dst key] := by
  have hstep : g.add_edge_raw src dst key =
      if Edge.mk src dst key ∈ ((g.add_state src).add_state dst).edges then
        (g.add_state src).add_state dst
      else { (g.add_state src).add_state dst with
             edges := ((g.add_state src).add_state dst).edges ++ [Edge.mk src dst key] } := rfl
  rw [hstep, add_state_edges, add_state_edges, if_neg h]

theorem dictModify_length {α : Type} (l : List (String × α)) (k : String)
    (f : α → α) : (dictModify l k f).length = l.length :=
  List.length_map _ _

theorem dictContains_modify {α : Type} (l : List (String × α)) (k k2 : String)
    (f : α → α) : dictContains (dictModify l k f) k2 = dictContains l k2 := by
  cases h : dictContains l k2 with
  | false =>
    rw [dictContains_eq_false_iff] at h ⊢
    rw [dictKeys_modify]
    exact h
  | true =>
    rw [dictContains_iff_mem] at h ⊢
    rw [dictKeys_modify]
    exact h

theorem fromJsonEdges_ok (l : List Edge) :
    ∀ (K0 : AppKnowledge),
    (∀ e ∈ l, dictContains K0.abstract_states e.src = true ∧
      dictContains K0.abstract_states e.dst = true ∧
      dictContains K0.abstract_actions e.key = true) →
    l.Nodup → (∀ e ∈ l, e ∉ K0.aig.edges) →
    ∃ K1, fromJsonEdges l K0 = some K1 ∧
      K1.aig.edges = K0.aig.edges ++ l ∧
      dictKeys K1.abstract_states = dictKeys K0.abstract_states ∧
      K1.abstract_states.length = K0.abstract_states.length ∧
      dictKeys K1.abstract_actions = dictKeys K0.abstract_actions ∧
      K1.abstract_actions.length = K0.abstract_actions.length ∧
      (∀ aid, (dictLookup K1.abstract_actions aid).map (fun a => a.exploration_flag) =
        (dictLookup K0.abstract_actions aid).map (fun a => a.exploration_flag)) ∧
      K1.unexplored_action_ids = K0.unexplored_action_ids ∧
      K1.raw_trace = K0.raw_trace := by
  induction l with
  | nil =>
    intro K0 _ _ _
    exact ⟨K0, rfl, by simp, rfl, rfl, rfl, rfl, fun _ => rfl, rfl, rfl⟩
  | cons e rest ih =>
    intro K0 hc hnd hnotin
    obtain ⟨h1, h2, h3⟩ := hc e (List.mem_cons_self _ _)
    have hK0e : e ∉ K0.aig.edges := hnotin e (List.mem_cons_self _ _)
    have hstep : fromJsonEdges (e :: rest) K0 =
        fromJsonEdges rest
          { K0 with
            abstract_states := dictModify K0.abstract_states e.src
              (fun st => { st with actions := setAdd st.actions e.key }),
            abstract_actions := dictModify K0.abstract_actions e.key
              (fun a => { a with source_abs_state := some e.src,
                                 target_abs_state := some e.dst }),
            aig := K0.aig.add_edge_raw e.src e.dst e.key } := by
      have hstep0 : fromJsonEdges (e :: rest) K0 =
          if dictContains K0.abstract_states e.src = true ∧
              dictContains K0.abstract_states e.dst = true ∧
              dictContains K0.abstract_actions e.key = true then
            fromJsonEdges rest
              { K0 with
                abstract_states := dictModify K0.abstract_states e.src
                  (fun st => { st with actions := setAdd st.actions e.key }),
                abstract_actions := dictModify K0.abstract_actions e.key
                  (fun a => { a with source_abs_state := some e.src,
                                     target_abs_state := some e.dst }),
                aig := K0.aig.add_edge_raw e.src e.dst e.key }
          else none := rfl
      rw [hstep0, if_pos ⟨h1, h2, h3⟩]
    rw [List.nodup_cons] at hnd
    obtain ⟨K1, hK1, he, hks, hls, hka, hla, hfl, hu, hr⟩ := ih
      { K0 with
        abstract_states := dictModify K0.abstract_states e.src
          (fun st => { st with actions := setAdd st.actions e.key }),
        abstract_actions := dictModify K0.abstract_actions e.key
          (fun a => { a with source_abs_state := some e.src,
                             target_abs_state := some e.dst }),
        aig := K0.aig.add_edge_raw e.src e.dst e.key }
      (by
        intro q hq
        obtain ⟨q1, q2, q3⟩ := hc q (List.mem_cons_of_mem _ hq)
        dsimp only
        rw [dictContains_modify, dictContains_modify, dictContains_modify]
        exact ⟨q1, q2, q3⟩)
      hnd.2
      (by
        intro q hq
        dsimp only
        rw [add_edge_raw_edges _ _ _ _ (by rw [edge_eta]; exact hK0e)]
        rw [edge_eta]
        simp only [List.mem_append, List.mem_singleton]
        rintro (hin | rfl)
        · exact hnotin q (List.mem_cons_of_mem _ hq) hin
        · exact hnd.1 hq)
    refine ⟨K1, by rw [hstep]; exact hK1, ?_, ?_, ?_, ?_, ?_, ?_, ?_, ?_⟩
    · rw [he]
      dsimp only
      rw [add_edge_raw_edges _ _ _ _ (by rw [edge_eta]; exact hK0e), edge_eta,
        List.append_assoc]
      rfl
    · rw [hks]
      dsimp only
      rw [dictKeys_modify]
    · rw [hls]
      dsimp only
      rw [dictModify_length]
    · rw [hka]
      dsimp only
      rw [dictKeys_modify]
    · rw [hla]
      dsimp only
      rw [dictModify_length]
    · intro aid
      rw [hfl aid]
      dsimp only
      rw [lookup_flag_modify K0.abstract_actions e.key
        (fun a => { a with source_abs_state := some e.src,
                           target_abs_state := some e.dst })
        (fun a => rfl)]
    · rw [hu]
    · rw [hr]

theorem actionType_ofString_value (t : ActionType) :
    ActionType.ofString t.value = some t := by
  cases t <;> rfl

theorem explorationFlag_ofString_value (f : ExplorationFlag) :
    ExplorationFlag.ofString f.value = some f := by
  cases f <;> rfl

theorem dictKeys_map_pair {α β : Type} (l : List (String × α))
    (g : String × α → β) :
    dictKeys (l.map (fun p => (p.1, g p))) = dictKeys l := by
  simp [dictKeys, List.map_map]

theorem from_json_eq (j : KnowledgeJson) (K1 K2 K3 : AppKnowledge)
    (h1 : fromJsonStates j.abstract_states emptyKnowledge = K1)
    (h2 : fromJsonActions j.abstract_actions K1 = some K2)
    (h3 : fromJsonEdges j.edges K2 = some K3) :
    AppKnowledge.from_json j =
      some { K3 with unexplored_action_ids := j.unexplored.dedup,
                     raw_trace := j.raw_trace } := by
  unfold AppKnowledge.from_json
  rw [h1, h2]
  dsimp only
  rw [h3]

/-- C2: from_json (to_json K) succeeds on well-formed knowledge and yields
knowledge with the same number of abstract states, the same number of
abstract actions, the same edge triples, the same exploration flag on
every action id, and the same unexplored set. -/
theorem roundtrip_preserves (K : AppKnowledge) (hwf : wfForRoundtrip K) :
    ∃ K2, AppKnowledge.from_json K.to_json = some K2 ∧
      K2.abstract_states.length = K.abstract_states.length ∧
      K2.abstract_actions.length = K.abstract_actions.length ∧
      K2.aig.edges = K.aig.edges ∧
      (∀ aid, (dictLookup K2.abstract_actions aid).map (fun a => a.exploration_flag) =
        (dictLookup K.abstract_actions aid).map (fun a => a.exploration_flag)) ∧
      (∀ aid, aid ∈ K2.unexplored_action_ids ↔ aid ∈ K.unexplored_action_ids) := by
  obtain ⟨hnds, hnda, hnde, hedg⟩ := hwf
  have hkeysS : dictKeys (K.to_json).abstract_states =
      dictKeys K.abstract_states := by
    simp [AppKnowledge.to_json, dictKeys, List.map_map]
  have hkeysA : dictKeys (K.to_json).abstract_actions =
      dictKeys K.abstract_actions := by
    simp [AppKnowledge.to_json, dictKeys, List.map_map]
  have hstates := fromJsonStates_eq (K.to_json).abstract_states emptyKnowledge
    (fun p _ => rfl) (by rw [show ((K.to_json).abstract_states.map (fun p => p.1) : List String) = dictKeys (K.to_json).abstract_states from rfl, hkeysS]; exact hnds)
  have hactions := fromJsonActions_eq (K.to_json).abstract_actions
    { emptyKnowledge with
      abstract_states := emptyKnowledge.abstract_states ++
        (K.to_json).abstract_states.map (fun p =>
          (p.1, ({ state_id := p.1,
                   repr_signature := p.2.repr_signature,
                   page_description := p.2.page_desc,
                   element_groups := p.2.element_groups } : AbstractState))) }
    (by
      intro p hp
      obtain ⟨q, hq, rfl⟩ := List.mem_map.mp hp
      refine ⟨?_, ?_⟩
      · rw [actionType_ofString_value]
        rfl
      · rw [explorationFlag_ofString_value]
        rfl)
    (fun p _ => rfl)
    (by rw [show ((K.to_json).abstract_actions.map (fun p => p.1) : List String) = dictKeys (K.to_json).abstract_actions from rfl, hkeysA]; exact hnda)
  have hstK : ∀ e ∈ K.aig.edges,
      dictContains (emptyKnowledge.abstract_states ++
        (K.to_json).abstract_states.map (fun p =>
          (p.1, ({ state_id := p.1,
                   repr_signature := p.2.repr_signature,
                   page_description := p.2.page_desc,
                   element_groups := p.2.element_groups } : AbstractState)))) e.src = true ∧
      dictContains (emptyKnowledge.abstract_states ++
        (K.to_json).abstract_states.map (fun p =>
          (p.1, ({ state_id := p.1,
                   repr_signature := p.2.repr_signature,
                   page_description := p.2.page_desc,
                   element_groups := p.2.element_groups } : AbstractState)))) e.dst = true := by
    intro e he
    obtain ⟨h1, h2, h3⟩ := hedg e he
    constructor
    · rw [dictContains_iff_mem] at h1 ⊢
      rw [dictKeys_append, dictKeys_map_pair, hkeysS]
      exact List.mem_append_right _ h1
    · rw [dictContains_iff_mem] at h2 ⊢
      rw [dictKeys_append, dictKeys_map_pair, hkeysS]
      exact List.mem_append_right _ h2
  have hflagRebuild : ∀ aid,
      (dictLookup ((K.abstract_actions.map (fun p =>
        (p.1, ({ action_type := p.2.action_type.value,
                 flag := p.2.exploration_flag.value,
                 src := p.2.source_abs_state,
                 dst := p.2.target_abs_state,
                 elements := p.2.actual_elements.map (fun e => e.node_id),
                 function := p.2.function_desc } : ActionJson)))).map (fun p =>
        (p.1, ({ action_id := p.1,
                 action_type := (ActionType.ofString p.2.action_type).getD ActionType.click,
                 actual_elements := p.2.elements.map (fun eid => UIElement.mk eid ""),
                 exploration_flag := (ExplorationFlag.ofString p.2.flag).getD ExplorationFlag.unexplored,
                 function_desc := p.2.function } : AbstractAction)))) aid).map
         (fun a => a.exploration_flag) =
      (dictLookup K.abstract_actions aid).map (fun a => a.exploration_flag) := by
    intro aid
    induction K.abstract_actions with
    | nil => rfl
    | cons p rest ih =>
      rw [List.map_cons, List.map_cons, dictLookup_cons, dictLookup_cons]
      by_cases h : p.1 = aid
      · simp only [h, if_pos rfl]
        simp [actionType_ofString_value, explorationFlag_ofString_value]
      · simp only [h, if_neg h]
        exact ih
  obtain ⟨K3, hK3, he, hks, hls, hka, hla, hfl, hu, hr⟩ :=
    fromJsonEdges_ok (K.to_json).edges
      { emptyKnowledge with
        abstract_states := emptyKnowledge.abstract_states ++
          (K.to_json).abstract_states.map (fun p =>
            (p.1, ({ state_id := p.1,
                     repr_signature := p.2.repr_signature,
                     page_description := p.2.page_desc,
                     element_groups := p.2.element_groups } : AbstractState))),
        abstract_actions := emptyKnowledge.abstract_actions ++
          (K.to_json).abstract_actions.map (fun p =>
            (p.1, ({ action_id := p.1,
                     action_type := (ActionType.ofString p.2.action_type).getD ActionType.click,
                     actual_elements := p.2.elements.map (fun eid => UIElement.mk eid ""),
                     exploration_flag := (ExplorationFlag.ofString p.2.flag).getD ExplorationFlag.unexplored,
                     function_desc := p.2.function } : AbstractAction))) }
      (by
        intro e he
        obtain ⟨hs1, hs2⟩ := hstK e he
        obtain ⟨-, -, h3⟩ := hedg e he
        refine ⟨hs1, hs2, ?_⟩
        dsimp only
        rw [dictContains_iff_mem] at h3 ⊢
        rw [dictKeys_append, dictKeys_map_pair, hkeysA]
        exact List.mem_append_right _ h3)
      hnde
      (fun e _ hin => by cases hin)
  have hactions2 : fromJsonActions (K.to_json).abstract_actions
      { emptyKnowledge with
        abstract_states := emptyKnowledge.abstract_states ++
          (K.to_json).abstract_states.map (fun p =>
            (p.1, ({ state_id := p.1,
                     repr_signature := p.2.repr_signature,
                     page_description := p.2.page_desc,
                     element_groups := p.2.element_groups } : AbstractState))) } =
      some { emptyKnowledge with
        abstract_states := emptyKnowledge.abstract_states ++
          (K.to_json).abstract_states.map (fun p =>
            (p.1, ({ state_id := p.1,
                     repr_signature := p.2.repr_signature,
                     page_description := p.2.page_desc,
                     element_groups := p.2.element_groups } : AbstractState))),
        abstract_actions := emptyKnowledge.abstract_actions ++
          (K.to_json).abstract_actions.map (fun p =>
            (p.1, ({ action_id := p.1,
                     action_type := (ActionType.ofString p.2.action_type).getD ActionType.click,
                     actual_elements := p.2.elements.map (fun eid => UIElement.mk eid ""),
                     exploration_flag := (ExplorationFlag.ofString p.2.flag).getD ExplorationFlag.unexplored,
                     function_desc := p.2.function } : AbstractAction))) } := hactions
  have hfj := from_json_eq K.to_json _ _ K3 hstates hactions2 hK3
  refine ⟨_, hfj, ?_, ?_, ?_, ?_, ?_⟩
  · dsimp only
    rw [hls]
    dsimp only
    simp [AppKnowledge.to_json, emptyKnowledge]
  · dsimp only
    rw [hla]
    dsimp only
    simp [AppKnowledge.to_json, emptyKnowledge]
  · dsimp only
    rw [he]
    dsimp only
    rfl
  · intro aid
    dsimp only
    rw [hfl aid]
    dsimp only
    rw [show emptyKnowledge.abstract_actions ++
        (K.to_json).abstract_actions.map (fun p =>
          (p.1, ({ action_id := p.1,
                   action_type := (ActionType.ofString p.2.action_type).getD ActionType.click,
                   actual_elements := p.2.elements.map (fun eid => UIElement.mk eid ""),
                   exploration_flag := (ExplorationFlag.ofString p.2.flag).getD ExplorationFlag.unexplored,
                   function_desc := p.2.function } : AbstractAction))) =
      (K.abstract_actions.map (fun p =>
        (p.1, ({ action_type := p.2.action_type.value,
                 flag := p.2.exploration_flag.value,
                 src := p.2.source_abs_state,
                 dst := p.2.target_abs_state,
                 elements := p.2.actual_elements.map (fun e => e.node_id),
                 function := p.2.function_desc } : ActionJson)))).map (fun p =>
        (p.1, ({ action_id := p.1,
                 action_type := (ActionType.ofString p.2.action_type).getD ActionType.click,
                 actual_elements := p.2.elements.map (fun eid => UIElement.mk eid ""),
                 exploration_flag := (ExplorationFlag.ofString p.2.flag).getD ExplorationFlag.unexplored,
                 function_desc := p.2.function } : AbstractAction))) from rfl]
    exact hflagRebuild aid
  · intro aid
    dsimp only
    rw [show (K.to_json).unexplored = K.unexplored_action_ids from rfl]
    exact List.mem_dedup


/-- Witness for C2 on a concrete two-state, one-action, one-edge
knowledge instance. -/
theorem roundtrip_preserves_witness :
    wfForRoundtrip rtK ∧
    (∃ K2, AppKnowledge.from_json rtK.to_json = some K2 ∧
      K2.abstract_states.length = rtK.abstract_states.length ∧
      K2.abstract_actions.length = rtK.abstract_actions.length ∧
      K2.aig.edges = rtK.aig.edges ∧
      (∀ aid, (dictLookup K2.abstract_actions aid).map (fun a => a.exploration_flag) =
        (dictLookup rtK.abstract_actions aid).map (fun a => a.exploration_flag)) ∧
      (∀ aid, aid ∈ K2.unexplored_action_ids ↔ aid ∈ rtK.unexplored_action_ids)) :=
  ⟨by
    refine ⟨by decide, by decide, by decide, ?_⟩
    intro e he
    fin_cases he <;> exact ⟨by decide, by decide, by decide⟩,
   roundtrip_preserves rtK
    (by
      refine ⟨by decide, by decide, by decide, ?_⟩
      intro e he
      fin_cases he <;> exact ⟨by decide, by decide, by decide⟩)⟩

-- C4 ------------------------------------------------------------------

theorem dictContains_true_lookup {α : Type} (l : List (String × α))
    (k : String) (h : dictContains l k = true) :
    ∃ v, dictLookup l k = some v := by
  induction l with
  | nil => cases h
  | cons p rest ih =>
    rw [dictLookup_cons]
    by_cases hp : p.1 = k
    · exact ⟨p.2, by rw [if_pos hp]⟩
    · rw [if_neg hp]
      refine ih ?_
      simp [dictContains, List.any_cons, hp] at h ⊢
      exact h

theorem match_abstract_action_contains (K : AppKnowledge)
    (pa : ConcreteAction) (aid : String)
    (h : match_abstract_action K pa = some aid) :
    dictContains K.abstract_actions aid = true := by
  unfold match_abstract_action at h
  cases hf : K.abstract_actions.find? (fun p =>
      p.2.action_type.value = pa.action_type ∧
      p.2.actual_elements.any (fun e => e.node_id = pa.element_id)) with
  | none => rw [hf] at h; cases h
  | some p =>
    rw [hf] at h
    injection h with h
    subst h
    rw [dictContains_iff_mem]
    exact List.mem_map_of_mem _ (List.mem_of_find?_eq_some hf)

theorem updatePrev_ineffective (O : Oracles) (K : AppKnowledge) (c : Cache)
    (ps : Snapshot) (pa : ConcreteAction) (newKey prevKey aid : String)
    (c2 : Cache)
    (hm : match_state O K c ps = (some prevKey, c2))
    (ha : match_abstract_action K pa = some aid)
    (heq : prevKey = newKey) :
    (dictLookup (updatePrev O K c ps pa newKey).1.abstract_actions aid).map
      (fun a => a.exploration_flag) = some ExplorationFlag.ineffective ∧
    (updatePrev O K c ps pa newKey).1.aig.edges =
      K.aig.edges.filter (fun e => e ≠ Edge.mk prevKey newKey aid) ∧
    Edge.mk prevKey newKey aid ∉ (updatePrev O K c ps pa newKey).1.aig.edges ∧
    (updatePrev O K c ps pa newKey).2 = c2 := by
  obtain ⟨a0, ha0⟩ := dictContains_true_lookup _ _
    (match_abstract_action_contains K pa aid ha)
  have hK1 := update_action_flag_some K aid ExplorationFlag.explored a0 ha0
  have hK1look : dictLookup (K.update_action_flag aid ExplorationFlag.explored).abstract_actions aid =
      some { a0 with exploration_flag := ExplorationFlag.explored } := by
    rw [hK1]
    dsimp only
    rw [dictLookup_modify_self, ha0]
    rfl
  have hK2 := update_action_flag_some _ aid ExplorationFlag.ineffective _ hK1look
  have hK2look : dictLookup ((K.update_action_flag aid ExplorationFlag.explored).update_action_flag
      aid ExplorationFlag.ineffective).abstract_actions aid =
      some { a0 with exploration_flag := ExplorationFlag.ineffective } := by
    rw [hK2]
    dsimp only
    rw [dictLookup_modify_self, hK1look]
    rfl
  have haig1 : (K.update_action_flag aid ExplorationFlag.explored).aig = K.aig := by
    rw [hK1]
  have haig2 : ((K.update_action_flag aid ExplorationFlag.explored).update_action_flag
      aid ExplorationFlag.ineffective).aig = K.aig := by
    rw [hK2, hK1]
  have hbody : updatePrev O K c ps pa newKey =
      ({ (K.update_action_flag aid ExplorationFlag.explored).update_action_flag
          aid ExplorationFlag.ineffective with
         aig := ((K.update_action_flag aid ExplorationFlag.explored).update_action_flag
           aid ExplorationFlag.ineffective).aig.remove_edge prevKey newKey aid }, c2) := by
    unfold updatePrev
    rw [hm]
    dsimp only
    rw [ha]
    dsimp only
    rw [if_pos heq]
    rw [hK2look]
    dsimp only
    rw [if_neg (by intro hcon; exact hcon rfl)]
  rw [hbody]
  refine ⟨?_, ?_, ?_, rfl⟩
  · dsimp only
    rw [hK2look]
    rfl
  · dsimp only
    rw [haig2]
    rfl
  · dsimp only
    rw [haig2]
    unfold AbstractInteractionGraph.remove_edge
    dsimp only
    rw [List.mem_filter]
    rintro ⟨-, hcon⟩
    simp at hcon

/-- C4: in an update_knowledge call where the previous snapshot and the
previous concrete action are both present, the previous state resolves,
the executed action is matched, and the resulting state equals the
originating state, the matched action ends flagged ineffective, no edge is
added for it, and any existing edge for it between the two (equal) states
is removed. -/
theorem update_knowledge_ineffective (O : Oracles) (K : AppKnowledge)
    (c : Cache) (gen : Nat) (ps ns : Snapshot) (pa : ConcreteAction)
    (K1 : AppKnowledge) (c1 : Cache) (newKey : String) (gen1 : Nat)
    (K2 : AppKnowledge) (gen2 : Nat) (prevKey aid : String) (c2 : Cache)
    (h2 : updateStates O (K.add_raw_trace_item (some ps) (some pa) ns) c ns gen =
      (K1, c1, newKey, gen1))
    (h3 : processCandidates newKey
      (match ns.grouped_actions with
       | some l => l
       | none => O.grouper ns) K1 gen1 = some (K2, gen2))
    (hm : match_state O K2 c1 ps = (some prevKey, c2))
    (ha : match_abstract_action K2 pa = some aid)
    (heq : prevKey = newKey) :
    ∃ K3, update_knowledge O K c gen (some ps) (some pa) ns = some (K3, c2, gen2) ∧
      (dictLookup K3.abstract_actions aid).map (fun a => a.exploration_flag) =
        some ExplorationFlag.ineffective ∧
      K3.aig.edges = K2.aig.edges.filter (fun e => e ≠ Edge.mk prevKey newKey aid) ∧
      Edge.mk prevKey newKey aid ∉ K3.aig.edges := by
  obtain ⟨hflag, hedges, hnotin, hcache⟩ :=
    updatePrev_ineffective O K2 c1 ps pa newKey prevKey aid c2 hm ha heq
  refine ⟨(updatePrev O K2 c1 ps pa newKey).1, ?_, hflag, hedges, hnotin⟩
  unfold update_knowledge
  dsimp only
  rw [h2]
  dsimp only
  rw [h3]
  dsimp only
  rw [show (updatePrev O K2 c1 ps pa newKey) =
    ((updatePrev O K2 c1 ps pa newKey).1, (updatePrev O K2 c1 ps pa newKey).2) from rfl]
  rw [hcache]

/-- Witness for C4: executing e1 from state X and landing back on X flags
the action ineffective and leaves no self-loop edge. -/
theorem update_knowledge_ineffective_witness :
    ∃ K3, update_knowledge oracleId k2K [] 3 (some snapX) (some caE1) snapX =
        some (K3, [], 3) ∧
      (dictLookup K3.abstract_actions "uuid-u").map (fun a => a.exploration_flag) =
        some ExplorationFlag.ineffective ∧
      K3.aig.edges = (updateStates oracleId (k2K.add_raw_trace_item (some snapX)
        (some caE1) snapX) [] snapX 3).1.aig.edges.filter
          (fun e => e ≠ Edge.mk "uuid-" "uuid-" "uuid-u") ∧
      Edge.mk "uuid-" "uuid-" "uuid-u" ∉ K3.aig.edges :=
  update_knowledge_ineffective oracleId k2K [] 3 snapX snapX caE1
    (updateStates oracleId (k2K.add_raw_trace_item (some snapX) (some caE1) snapX) [] snapX 3).1
    (updateStates oracleId (k2K.add_raw_trace_item (some snapX) (some caE1) snapX) [] snapX 3).2.1
    "uuid-"
    (updateStates oracleId (k2K.add_raw_trace_item (some snapX) (some caE1) snapX) [] snapX 3).2.2.2
    (updateStates oracleId (k2K.add_raw_trace_item (some snapX) (some caE1) snapX) [] snapX 3).1
    3 "uuid-" "uuid-u" []
    (by rfl) (by rfl) (by rfl) (by rfl) rfl

-- C3 ------------------------------------------------------------------

/-- Counterexample for C3: after three update_knowledge calls from empty
knowledge (register e1 on state X, execute e1 from X landing on Y, then
execute e1 from X landing back on X), the action uuid-u is flagged
ineffective while the graph still holds the earlier edge X-to-Y keyed by
it: only the edge between the resolved originating and resulting states
(here the self-loop pair) is pruned on flagging. -/
theorem ineffective_edge_persists_counterexample :
    kStep3Flag = some (some ExplorationFlag.ineffective) ∧
    kStep3Edges = some [Edge.mk "uuid-" "uuid-uu" "uuid-u"] := by
  constructor
  · decide
  · decide

/-- C3 amended: update_knowledge alone removes only the edge between the
resolved originating and resulting states when it flags an action
ineffective, so edges keyed by an ineffective action may persist; the
invariant that no graph edge is keyed by an ineffective action is
established by PathFinder.prune_ineffective_edges whenever it runs: every
edge surviving the prune is keyed by an action whose flag is not
ineffective. -/
theorem prune_ineffective_edges_invariant (K : AppKnowledge) :
    ∀ e ∈ (prune_ineffective_edges K).aig.edges,
      ∀ a, dictLookup K.abstract_actions e.key = some a →
        a.exploration_flag ≠ ExplorationFlag.ineffective := by
  intro e he a hl
  unfold prune_ineffective_edges at he
  dsimp only at he
  rw [List.mem_filter] at he
  have h2 := he.2
  rw [hl] at h2
  simpa using h2

/-- Witness for the amended C3: the explored action edge of kStep2
survives the prune and its action is not ineffective. -/
theorem prune_ineffective_edges_invariant_witness :
    k2Act.exploration_flag ≠ ExplorationFlag.ineffective :=
  prune_ineffective_edges_invariant k2K (Edge.mk "uuid-" "uuid-uu" "uuid-u")
    (by decide) k2Act (by decide)

-- C9 ------------------------------------------------------------------

theorem bfsAux_sound (adj : String → List String) (d : String)
    (P : String → Prop) (hP : ∀ u v, P u → v ∈ adj u → P v) :
    ∀ (fuel : Nat) (visited : List String)
      (queue : List (String × List String)) (p : List String),
      (∀ q ∈ queue, P q.1) →
      bfsAux adj d fuel visited queue = some p → P d := by
  intro fuel
  induction fuel with
  | zero =>
    intro visited queue p hq hrun
    cases queue with
    | nil => cases hrun
    | cons q rest => cases hrun
  | succ n ih =>
    intro visited queue p hq hrun
    cases queue with
    | nil => cases hrun
    | cons q rest =>
      obtain ⟨qn, qp⟩ := q
      unfold bfsAux at hrun
      by_cases hd : qn = d
      · rw [if_pos hd] at hrun
        exact hd ▸ hq (qn, qp) (List.mem_cons_self _ _)
      · rw [if_neg hd] at hrun
        by_cases hv : qn ∈ visited
        · rw [if_pos hv] at hrun
          exact ih visited rest p (fun r hr => hq r (List.mem_cons_of_mem _ hr)) hrun
        · rw [if_neg hv] at hrun
          refine ih _ _ p ?_ hrun
          intro r hr
          rcases List.mem_append.mp hr with hr | hr
          · exact hq r (List.mem_cons_of_mem _ hr)
          · obtain ⟨m, hm, rfl⟩ := List.mem_map.mp hr
            exact hP qn m (hq (qn, qp) (List.mem_cons_self _ _)) hm

theorem mem_adjD (E : List Edge) (u v : String) (h : v ∈ adjD E u) :
    dirStep E u v := by
  unfold adjD at h
  obtain ⟨e, he, rfl⟩ := List.mem_map.mp h
  rw [List.mem_filter] at he
  refine ⟨e.key, ?_⟩
  have hsrc : e.src = u := by simpa using he.2
  rw [← hsrc]
  rw [edge_eta]
  exact he.1

theorem mem_adjU (E : List Edge) (u v : String) (h : v ∈ adjU E u) :
    undirStep E u v := by
  unfold adjU at h
  rcases List.mem_append.mp h with h | h
  · obtain ⟨e, he, rfl⟩ := List.mem_map.mp h
    rw [List.mem_filter] at he
    refine Or.inl ⟨e.key, ?_⟩
    have hsrc : e.src = u := by simpa using he.2
    rw [← hsrc, edge_eta]
    exact he.1
  · obtain ⟨e, he, rfl⟩ := List.mem_map.mp h
    rw [List.mem_filter] at he
    refine Or.inr ⟨e.key, ?_⟩
    have hdst : e.dst = u := by simpa using he.2
    rw [← hdst, edge_eta]
    exact he.1

theorem shortest_path_unreachable (g : AbstractInteractionGraph)
    (s d : String) (hs : s ∈ g.nodes) (hd : d ∈ g.nodes)
    (h : ¬ DirConn g.edges s d) : g.shortest_path s d = some [] := by
  unfold AbstractInteractionGraph.shortest_path
  rw [if_pos ⟨hs, hd⟩]
  cases hb : bfsAux (adjD g.edges) d (bfsFuel g) [] [(s, [])] with
  | none => rfl
  | some p =>
    exfalso
    refine h (bfsAux_sound (adjD g.edges) d (DirConn g.edges s) ?_ _ _ _ p ?_ hb)
    · intro u v hu hv
      exact Relation.ReflTransGen.tail hu (mem_adjD _ _ _ hv)
    · intro q hq
      rcases List.mem_singleton.mp hq with rfl
      exact Relation.ReflTransGen.refl

theorem bfs_any_path_unreachable (K : AppKnowledge) (s d : String)
    (h : ¬ UndirConn K.aig.edges s d) : bfs_any_path K s d = [] := by
  unfold bfs_any_path
  by_cases hn : s ∈ K.aig.nodes ∧ d ∈ K.aig.nodes
  · rw [if_pos hn]
    cases hb : bfsAux (adjU K.aig.edges) d (bfsFuel K.aig) [] [(s, [])] with
    | none => rfl
    | some p =>
      exfalso
      refine h (bfsAux_sound (adjU K.aig.edges) d (UndirConn K.aig.edges s) ?_ _ _ _ p ?_ hb)
      · intro u v hu hv
        exact Relation.ReflTransGen.tail hu (mem_adjU _ _ _ hv)
      · intro q hq
        rcases List.mem_singleton.mp hq with rfl
        exact Relation.ReflTransGen.refl
  · rw [if_neg hn]

theorem dirConn_mono (E E2 : List Edge) (s d : String)
    (hsub : ∀ e ∈ E2, e ∈ E) (h : DirConn E2 s d) : DirConn E s d := by
  refine Relation.ReflTransGen.mono ?_ h
  rintro a b ⟨k, hk⟩
  exact ⟨k, hsub _ hk⟩

theorem undirConn_mono (E E2 : List Edge) (s d : String)
    (hsub : ∀ e ∈ E2, e ∈ E) (h : UndirConn E2 s d) : UndirConn E s d := by
  refine Relation.ReflTransGen.mono ?_ h
  rintro a b (⟨k, hk⟩ | ⟨k, hk⟩)
  · exact Or.inl ⟨k, hsub _ hk⟩
  · exact Or.inr ⟨k, hsub _ hk⟩

theorem prune_edges_subset (K : AppKnowledge) :
    ∀ e ∈ (prune_ineffective_edges K).aig.edges, e ∈ K.aig.edges := by
  intro e he
  unfold prune_ineffective_edges at he
  dsimp only at he
  exact List.mem_of_mem_filter he

theorem prune_nodes_eq (K : AppKnowledge) :
    (prune_ineffective_edges K).aig.nodes = K.aig.nodes := rfl

theorem findPathLoop_unreachable (s d : String) :
    ∀ (n : Nat) (K : AppKnowledge), s ∈ K.aig.nodes → d ∈ K.aig.nodes →
      ¬ DirConn K.aig.edges s d → ¬ UndirConn K.aig.edges s d →
      (findPathLoop s d n K).map (fun r => r.1) = some [] := by
  intro n
  induction n with
  | zero =>
    intro K _ _ _ _
    rfl
  | succ m ih =>
    intro K hs hd hdir hundir
    unfold findPathLoop
    rw [shortest_path_unreachable K.aig s d hs hd hdir]
    dsimp only
    rw [if_neg (by intro hcon; exact hcon rfl)]
    have hundir2 : ¬ UndirConn (prune_ineffective_edges K).aig.edges s d :=
      fun hc => hundir (undirConn_mono _ _ _ _ (prune_edges_subset K) hc)
    rw [bfs_any_path_unreachable _ s d hundir2]
    rw [if_neg (by intro hcon; exact hcon rfl)]
    refine ih (prune_ineffective_edges K) ?_ ?_ ?_ hundir2
    · rw [prune_nodes_eq]
      exact hs
    · rw [prune_nodes_eq]
      exact hd
    · exact fun hc => hdir (dirConn_mono _ _ _ _ (prune_edges_subset K) hc)

/-- C9: find_path returns the empty list immediately when the target
action has no recorded source state, and returns the empty list after
exhausting its retries (including the ineffective-edge prune and the
undirected fallback) when the current state and the target source state
are both graph nodes with no directed path and no undirected connection
between them. -/
theorem find_path_disconnected (maxRetry : Nat) (K : AppKnowledge)
    (curKey : String) (ta : AbstractAction) :
    (ta.source_abs_state = none → find_path maxRetry K curKey ta = some ([], K)) ∧
    (∀ tgtKey, ta.source_abs_state = some tgtKey →
      curKey ∈ K.aig.nodes → tgtKey ∈ K.aig.nodes →
      ¬ DirConn K.aig.edges curKey tgtKey →
      ¬ UndirConn K.aig.edges curKey tgtKey →
      (find_path maxRetry K curKey ta).map (fun r => r.1) = some []) := by
  constructor
  · intro hnone
    unfold find_path
    rw [hnone]
  · intro tgtKey hsome hcur htgt hdir hundir
    unfold find_path
    rw [hsome]
    exact findPathLoop_unreachable curKey tgtKey maxRetry K hcur htgt hdir hundir

theorem dirConn_nil (s d : String) (h : DirConn [] s d) : s = d := by
  induction h with
  | refl => rfl
  | tail _ h2 ih =>
    obtain ⟨k, hk⟩ := h2
    cases hk

theorem undirConn_nil (s d : String) (h : UndirConn [] s d) : s = d := by
  induction h with
  | refl => rfl
  | tail _ h2 ih =>
    rcases h2 with ⟨k, hk⟩ | ⟨k, hk⟩ <;> cases hk

/-- Witness for C9 on a two-node edgeless graph. -/
theorem find_path_disconnected_witness :
    find_path 3 discK "a" taNoSource = some ([], discK) ∧
    (find_path 3 discK "a" taSourceB).map (fun r => r.1) = some [] :=
  ⟨(find_path_disconnected 3 discK "a" taNoSource).1 rfl,
   (find_path_disconnected 3 discK "a" taSourceB).2 "b" rfl (by decide) (by decide)
     (fun h => absurd (dirConn_nil "a" "b" h) (by decide))
     (fun h => absurd (undirConn_nil "a" "b" h) (by decide))⟩

-- C7 ------------------------------------------------------------------

theorem scanRefs_eq_described (eqo : Snapshot → Snapshot → Bool)
    (hash : String → String) (snap : Snapshot) :
    ∀ (refs : List Snapshot) (c : Cache),
      scanRefs eqo hash snap refs c = scanRefsDescribed eqo hash snap refs c := by
  intro refs
  induction refs with
  | nil => intro c; rfl
  | cons r rs ih =>
    intro c
    unfold scanRefs scanRefsDescribed decideEquivCached
    dsimp only
    cases hc : cacheLookup c (safe_sig hash r, safe_sig hash snap) with
    | some b =>
      cases b with
      | false => simp [ih]
      | true => simp
    | none =>
      cases hb : eqo r snap with
      | false => simp [hb, ih]
      | true => simp [hb]

theorem scanStates_eq_described (eqo : Snapshot → Snapshot → Bool)
    (hash : String → String) (snap : Snapshot) :
    ∀ (states : List (String × AbstractState)) (c : Cache),
      scanStates eqo hash snap states c =
        scanStatesDescribed eqo hash snap states c := by
  intro states
  induction states with
  | nil => intro c; rfl
  | cons p rest ih =>
    intro c
    obtain ⟨sid, st⟩ := p
    unfold scanStates scanStatesDescribed
    rw [scanRefs_eq_described]
    cases hr : scanRefsDescribed eqo hash snap (st.concrete_states.take 3) c with
    | mk b c2 =>
      cases b
      · simpa using ih c2
      · rfl

/-- C7: the implementation of match_state coincides with the spec's
description of it — exact stored-signature match first, then, only when
the semantic-equivalence oracle is configured, the per-state scan over up
to three representative snapshots with every pairwise decision cached
under truncated-signature keys, returning the first affirmatively matched
state, and none otherwise. -/
theorem match_state_eq_described (O : Oracles) (K : AppKnowledge)
    (c : Cache) (snap : Snapshot) :
    match_state O K c snap = matchStateDescribed O K c snap := by
  unfold match_state matchStateDescribed
  dsimp only
  cases hfind : K.abstract_states.find? (fun p =>
      p.2.repr_signature = signature O.hash snap) with
  | some p => rfl
  | none =>
    cases O.equiv with
    | none => rfl
    | some eqo =>
      dsimp only
      exact scanStates_eq_described eqo O.hash snap K.abstract_states c

-- C5 ------------------------------------------------------------------

theorem uuidGen_injective (m n : Nat) (h : uuidGen m = uuidGen n) : m = n := by
  unfold uuidGen at h
  have hd := congrArg String.toList h
  simp only [String.toList] at hd
  have hrep : List.replicate m 'u' = List.replicate n 'u' := by
    have : "uuid-".data ++ List.replicate m 'u' =
        "uuid-".data ++ List.replicate n 'u' := by
      simpa [String.append] using hd
    exact List.append_cancel_left this
  have := congrArg List.length hrep
  simpa using this

theorem freshFor_mono (g g2 : Nat) (A : List (String × AbstractAction))
    (h : freshFor g A) (hle : g ≤ g2) : freshFor g2 A :=
  fun n hn => h n (Nat.le_trans hle hn)

theorem freshFor_keys_eq (g : Nat) (A B : List (String × AbstractAction))
    (h : freshFor g A) (hk : dictKeys B = dictKeys A) : freshFor g B :=
  fun n hn => hk ▸ h n hn

theorem hasMatch_modify (A : List (String × AbstractAction)) (k : String)
    (f : AbstractAction → AbstractAction)
    (hf : ∀ a, (f a).action_type = a.action_type ∧
      (f a).actual_elements = a.actual_elements)
    (ca : ConcreteAction) (h : hasMatch A ca) :
    hasMatch (dictModify A k f) ca := by
  obtain ⟨p, hp, hty, hel⟩ := h
  by_cases hk : p.1 = k
  · refine ⟨(p.1, f p.2), ?_, ?_, ?_⟩
    · unfold dictModify
      have : (if p.1 = k then (p.1, f p.2) else p) = (p.1, f p.2) := if_pos hk
      exact this ▸ List.mem_map_of_mem _ hp
    · rw [show ((p.1, f p.2) : String × AbstractAction).2 = f p.2 from rfl,
        (hf p.2).1]
      exact hty
    · rw [show ((p.1, f p.2) : String × AbstractAction).2 = f p.2 from rfl,
        (hf p.2).2]
      exact hel
  · refine ⟨p, ?_, hty, hel⟩
    unfold dictModify
    have : (if p.1 = k then (p.1, f p.2) else p) = p := if_neg hk
    exact this ▸ List.mem_map_of_mem _ hp

theorem hasMatch_append (A B : List (String × AbstractAction))
    (ca : ConcreteAction) (h : hasMatch A ca) : hasMatch (A ++ B) ca := by
  obtain ⟨p, hp, hty, hel⟩ := h
  exact ⟨p, List.mem_append_left _ hp, hty, hel⟩

theorem sigExists_modify (l : List (String × AbstractState)) (k : String)
    (f : AbstractState → AbstractState)
    (hf : ∀ st, (f st).repr_signature = st.repr_signature) (sig : String)
    (h : ∃ p ∈ l, p.2.repr_signature = sig) :
    ∃ p ∈ dictModify l k f, p.2.repr_signature = sig := by
  obtain ⟨p, hp, hsig⟩ := h
  by_cases hk : p.1 = k
  · refine ⟨(p.1, f p.2), ?_, ?_⟩
    · unfold dictModify
      have : (if p.1 = k then (p.1, f p.2) else p) = (p.1, f p.2) := if_pos hk
      exact this ▸ List.mem_map_of_mem _ hp
    · rw [show ((p.1, f p.2) : String × AbstractState).2 = f p.2 from rfl, hf p.2]
      exact hsig
  · refine ⟨p, ?_, hsig⟩
    unfold dictModify
    have : (if p.1 = k then (p.1, f p.2) else p) = p := if_neg hk
    exact this ▸ List.mem_map_of_mem _ hp

theorem ActionType.value_of_ofString (s : String) (t : ActionType)
    (h : ActionType.ofString s = some t) : t.value = s := by
  unfold ActionType.ofString at h
  split at h <;> first
    | (injection h with h2; subst h2; rfl)
    | cases h

theorem dictKeys_cons {α : Type} (p : String × α) (l : List (String × α)) :
    dictKeys (p :: l) = p.1 :: dictKeys l := rfl

theorem action_matches_cons (ca : ConcreteAction) (k : String)
    (a : AbstractAction) (rest : List (String × AbstractAction)) :
    action_matches_existing ca ((k, a) :: rest) =
      if a.action_type.value ≠ ca.action_type then
        ((action_matches_existing ca rest).1,
         (k, a) :: (action_matches_existing ca rest).2)
      else if a.actual_elements.any (fun e => e.node_id = ca.element_id) then
        (true, (k, a) :: rest)
      else if pyLower (pyStrip ca.function) ≠ "" ∧
          pyLower (pyStrip a.function_desc) = pyLower (pyStrip ca.function) then
        (true, (k, { a with actual_elements :=
          a.actual_elements ++ [UIElement.mk ca.element_id ""] }) :: rest)
      else if ca.xpath ≠ "" ∧
          a.actual_elements.any (fun e => e.description = ca.xpath) then
        (true, (k, { a with actual_elements :=
          a.actual_elements ++ [UIElement.mk ca.element_id ca.xpath] }) :: rest)
      else
        ((action_matches_existing ca rest).1,
         (k, a) :: (action_matches_existing ca rest).2) := rfl

theorem action_matches_keys (ca : ConcreteAction) :
    ∀ A, dictKeys (action_matches_existing ca A).2 = dictKeys A := by
  intro A
  induction A with
  | nil => rfl
  | cons p rest ih =>
    obtain ⟨k, a⟩ := p
    rw [action_matches_cons]
    by_cases c1 : a.action_type.value ≠ ca.action_type
    · rw [if_pos c1]
      rw [show ((action_matches_existing ca rest).1,
        (k, a) :: (action_matches_existing ca rest).2).2 =
        (k, a) :: (action_matches_existing ca rest).2 from rfl]
      rw [dictKeys_cons, dictKeys_cons, ih]
    · rw [if_neg c1]
      by_cases c2 : a.actual_elements.any (fun e => e.node_id = ca.element_id)
      · rw [if_pos c2]
      · rw [if_neg c2]
        by_cases c3 : pyLower (pyStrip ca.function) ≠ "" ∧
            pyLower (pyStrip a.function_desc) = pyLower (pyStrip ca.function)
        · rw [if_pos c3]
          rfl
        · rw [if_neg c3]
          by_cases c4 : ca.xpath ≠ "" ∧
              a.actual_elements.any (fun e => e.description = ca.xpath)
          · rw [if_pos c4]
            rfl
          · rw [if_neg c4]
            rw [show ((action_matches_existing ca rest).1,
              (k, a) :: (action_matches_existing ca rest).2).2 =
              (k, a) :: (action_matches_existing ca rest).2 from rfl]
            rw [dictKeys_cons, dictKeys_cons, ih]

theorem action_matches_mono (ca ca2 : ConcreteAction) :
    ∀ A, hasMatch A ca2 → hasMatch (action_matches_existing ca A).2 ca2 := by
  intro A
  induction A with
  | nil =>
    rintro ⟨p, hp, -, -⟩
    cases hp
  | cons p rest ih =>
    obtain ⟨k, a⟩ := p
    rintro ⟨q, hq, hty, hel⟩
    rw [action_matches_cons]
    by_cases c1 : a.action_type.value ≠ ca.action_type
    · rw [if_pos c1]
      rcases List.mem_cons.mp hq with rfl | hq2
      · exact ⟨(k, a), List.mem_cons_self _ _, hty, hel⟩
      · obtain ⟨w, hw, hw2, hw3⟩ := ih ⟨q, hq2, hty, hel⟩
        exact ⟨w, List.mem_cons_of_mem _ hw, hw2, hw3⟩
    · rw [if_neg c1]
      by_cases c2 : a.actual_elements.any (fun e => e.node_id = ca.element_id)
      · rw [if_pos c2]
        exact ⟨q, hq, hty, hel⟩
      · rw [if_neg c2]
        by_cases c3 : pyLower (pyStrip ca.function) ≠ "" ∧
            pyLower (pyStrip a.function_desc) = pyLower (pyStrip ca.function)
        · rw [if_pos c3]
          rcases List.mem_cons.mp hq with rfl | hq2
          · refine ⟨(k, { a with actual_elements :=
              a.actual_elements ++ [UIElement.mk ca.element_id ""] }),
              List.mem_cons_self _ _, hty, ?_⟩
            rw [List.map_append]
            exact List.mem_append_left _ hel
          · exact ⟨q, List.mem_cons_of_mem _ hq2, hty, hel⟩
        · rw [if_neg c3]
          by_cases c4 : ca.xpath ≠ "" ∧
              a.actual_elements.any (fun e => e.description = ca.xpath)
          · rw [if_pos c4]
            rcases List.mem_cons.mp hq with rfl | hq2
            · refine ⟨(k, { a with actual_elements :=
                a.actual_elements ++ [UIElement.mk ca.element_id ca.xpath] }),
                List.mem_cons_self _ _, hty, ?_⟩
              rw [List.map_append]
              exact List.mem_append_left _ hel
            · exact ⟨q, List.mem_cons_of_mem _ hq2, hty, hel⟩
          · rw [if_neg c4]
            rcases List.mem_cons.mp hq with rfl | hq2
            · exact ⟨(k, a), List.mem_cons_self _ _, hty, hel⟩
            · obtain ⟨w, hw, hw2, hw3⟩ := ih ⟨q, hq2, hty, hel⟩
              exact ⟨w, List.mem_cons_of_mem _ hw, hw2, hw3⟩

theorem action_matches_true (ca : ConcreteAction) :
    ∀ A, (action_matches_existing ca A).1 = true →
      hasMatch (action_matches_existing ca A).2 ca := by
  intro A
  induction A with
  | nil =>
    intro h
    cases h
  | cons p rest ih =>
    obtain ⟨k, a⟩ := p
    intro h
    rw [action_matches_cons] at h ⊢
    by_cases c1 : a.action_type.value ≠ ca.action_type
    · rw [if_pos c1] at h ⊢
      obtain ⟨w, hw, hw2, hw3⟩ := ih h
      exact ⟨w, List.mem_cons_of_mem _ hw, hw2, hw3⟩
    · rw [if_neg c1] at h ⊢
      have hty : a.action_type.value = ca.action_type := not_ne_iff.mp c1
      by_cases c2 : a.actual_elements.any (fun e => e.node_id = ca.element_id)
      · rw [if_pos c2] at h ⊢
        obtain ⟨e, he, he2⟩ := List.any_eq_true.mp c2
        refine ⟨(k, a), List.mem_cons_self _ _, hty, ?_⟩
        exact List.mem_map.mpr ⟨e, he, by simpa using he2⟩
      · rw [if_neg c2] at h ⊢
        by_cases c3 : pyLower (pyStrip ca.function) ≠ "" ∧
            pyLower (pyStrip a.function_desc) = pyLower (pyStrip ca.function)
        · rw [if_pos c3] at h ⊢
          refine ⟨(k, { a with actual_elements :=
            a.actual_elements ++ [UIElement.mk ca.element_id ""] }),
            List.mem_cons_self _ _, hty, ?_⟩
          rw [List.map_append]
          exact List.mem_append_right _ (by simp)
        · rw [if_neg c3] at h ⊢
          by_cases c4 : ca.xpath ≠ "" ∧
              a.actual_elements.any (fun e => e.description = ca.xpath)
          · rw [if_pos c4] at h ⊢
            refine ⟨(k, { a with actual_elements :=
              a.actual_elements ++ [UIElement.mk ca.element_id ca.xpath] }),
              List.mem_cons_self _ _, hty, ?_⟩
            rw [List.map_append]
            exact List.mem_append_right _ (by simp)
          · rw [if_neg c4] at h ⊢
            obtain ⟨w, hw, hw2, hw3⟩ := ih h
            exact ⟨w, List.mem_cons_of_mem _ hw, hw2, hw3⟩

theorem hasMatch_matches_true (ca : ConcreteAction) :
    ∀ A, hasMatch A ca → (action_matches_existing ca A).1 = true := by
  intro A
  induction A with
  | nil =>
    rintro ⟨p, hp, -, -⟩
    cases hp
  | cons p rest ih =>
    obtain ⟨k, a⟩ := p
    rintro ⟨q, hq, hty, hel⟩
    rw [action_matches_cons]
    by_cases c1 : a.action_type.value ≠ ca.action_type
    · rw [if_pos c1]
      rcases List.mem_cons.mp hq with rfl | hq2
      · exact absurd hty c1
      · exact ih ⟨q, hq2, hty, hel⟩
    · rw [if_neg c1]
      by_cases c2 : a.actual_elements.any (fun e => e.node_id = ca.element_id)
      · rw [if_pos c2]
      · rw [if_neg c2]
        by_cases c3 : pyLower (pyStrip ca.function) ≠ "" ∧
            pyLower (pyStrip a.function_desc) = pyLower (pyStrip ca.function)
        · rw [if_pos c3]
        · rw [if_neg c3]
          by_cases c4 : ca.xpath ≠ "" ∧
              a.actual_elements.any (fun e => e.description = ca.xpath)
          · rw [if_pos c4]
          · rw [if_neg c4]
            rcases List.mem_cons.mp hq with rfl | hq2
            · exfalso
              refine c2 (List.any_eq_true.mpr ?_)
              obtain ⟨e, he, he2⟩ := List.mem_map.mp hel
              exact ⟨e, he, by simpa using he2⟩
            · exact ih ⟨q, hq2, hty, hel⟩

theorem processCandidates_cons_matched (stKey : String) (ca : ConcreteAction)
    (rest : List ConcreteAction) (K : AppKnowledge) (gen : Nat)
    (h : (action_matches_existing ca K.abstract_actions).1 = true) :
    processCandidates stKey (ca :: rest) K gen =
      processCandidates stKey rest
        { K with abstract_actions := (action_matches_existing ca K.abstract_actions).2 }
        gen := by
  conv_lhs => unfold processCandidates
  dsimp only
  rw [h]
  simp only [if_true]

theorem processCandidates_cons_unmatched (stKey : String) (ca : ConcreteAction)
    (rest : List ConcreteAction) (K : AppKnowledge) (gen : Nat)
    (aa : AbstractAction) (gen3 : Nat)
    (h : (action_matches_existing ca K.abstract_actions).1 = false)
    (hc : create_abstract_action ca gen = some (aa, gen3)) :
    processCandidates stKey (ca :: rest) K gen =
      processCandidates stKey rest
        { K with
          abstract_actions := (dictModify
            (dictInsert (action_matches_existing ca K.abstract_actions).2
              ({ aa with source_abs_state := some stKey }).action_id
              { aa with source_abs_state := some stKey })
            ({ aa with source_abs_state := some stKey }).action_id
            (fun a => { a with exploration_flag := ExplorationFlag.unexplored })),
          abstract_states := (dictModify K.abstract_states stKey
            (fun st => { st with actions := (setAdd st.actions ({ aa with source_abs_state := some stKey }).action_id) })),
          unexplored_action_ids :=
            (if ({ aa with source_abs_state := some stKey }).exploration_flag =
                ExplorationFlag.unexplored then
              setAdd K.unexplored_action_ids
                ({ aa with source_abs_state := some stKey }).action_id
            else K.unexplored_action_ids) }
        gen3 := by
  conv_lhs => unfold processCandidates
  dsimp only
  rw [h]
  simp only [Bool.false_eq_true, if_false]
  rw [hc]
  dsimp only
  rfl

theorem processCandidates_all_match (stKey : String) :
    ∀ (cas : List ConcreteAction) (K : AppKnowledge) (gen : Nat),
    (∀ ca ∈ cas, hasMatch K.abstract_actions ca) →
    ∃ A2, processCandidates stKey cas K gen =
        some ({ K with abstract_actions := A2 }, gen) ∧
      dictKeys A2 = dictKeys K.abstract_actions := by
  intro cas
  induction cas with
  | nil =>
    intro K gen _
    exact ⟨K.abstract_actions, rfl, rfl⟩
  | cons ca rest ih =>
    intro K gen hall
    have hm := hall ca (List.mem_cons_self _ _)
    have htrue := hasMatch_matches_true ca _ hm
    rw [processCandidates_cons_matched stKey ca rest K gen htrue]
    obtain ⟨A2, hh, hkeys⟩ := ih
      { K with abstract_actions := (action_matches_existing ca K.abstract_actions).2 }
      gen
      (fun ca2 hca2 => action_matches_mono ca ca2 _
        (hall ca2 (List.mem_cons_of_mem _ hca2)))
    refine ⟨A2, hh, ?_⟩
    rw [hkeys]
    exact action_matches_keys ca _

theorem processCandidates_establishes (stKey : String) :
    ∀ (cas : List ConcreteAction) (K : AppKnowledge) (gen : Nat)
      (K2 : AppKnowledge) (gen2 : Nat),
    freshFor gen K.abstract_actions →
    processCandidates stKey cas K gen = some (K2, gen2) →
    (∀ ca ∈ cas, hasMatch K2.abstract_actions ca) ∧
    (∀ ca2, hasMatch K.abstract_actions ca2 → hasMatch K2.abstract_actions ca2) ∧
    freshFor gen2 K2.abstract_actions ∧
    (∀ sig, (∃ p ∈ K.abstract_states, p.2.repr_signature = sig) →
      ∃ p ∈ K2.abstract_states, p.2.repr_signature = sig) := by
  intro cas
  induction cas with
  | nil =>
    intro K gen K2 gen2 hf hrun
    have hpair := Option.some.inj hrun
    obtain ⟨hK, hg⟩ := Prod.mk.injEq _ _ _ _ ▸ hpair
    subst hK
    subst hg
    exact ⟨fun ca hca => absurd hca (List.not_mem_nil ca),
      fun ca2 h => h, hf, fun sig h => h⟩
  | cons ca rest ih =>
    intro K gen K2 gen2 hf hrun
    have hf2 : freshFor gen (action_matches_existing ca K.abstract_actions).2 :=
      freshFor_keys_eq _ _ _ hf (action_matches_keys ca _)
    by_cases hm : (action_matches_existing ca K.abstract_actions).1 = true
    · rw [processCandidates_cons_matched stKey ca rest K gen hm] at hrun
      obtain ⟨hrest, hpres, hfr, hsig⟩ := ih
        { K with abstract_actions := (action_matches_existing ca K.abstract_actions).2 }
        gen K2 gen2 hf2 hrun
      refine ⟨?_, ?_, hfr, ?_⟩
      · intro ca2 hca2
        rcases List.mem_cons.mp hca2 with rfl | hca3
        · exact hpres ca2 (action_matches_true ca2 _ hm)
        · exact hrest ca2 hca3
      · intro ca2 h2
        exact hpres ca2 (action_matches_mono ca ca2 _ h2)
      · intro sig hs
        exact hsig sig hs
    · have hm2 : (action_matches_existing ca K.abstract_actions).1 = false := by
        cases hb : (action_matches_existing ca K.abstract_actions).1 with
        | false => rfl
        | true => exact absurd hb hm
      cases hcr : create_abstract_action ca gen with
      | none =>
        have hnone : processCandidates stKey (ca :: rest) K gen = none := by
          conv_lhs => unfold processCandidates
          dsimp only
          rw [hm2]
          simp only [Bool.false_eq_true, if_false]
          rw [hcr]
        rw [hnone] at hrun
        cases hrun
      | some pr =>
        obtain ⟨aa, gen3⟩ := pr
        rw [processCandidates_cons_unmatched stKey ca rest K gen aa gen3 hm2 hcr] at hrun
        unfold create_abstract_action at hcr
        cases hty : ActionType.ofString ca.action_type with
        | none =>
          rw [hty] at hcr
          cases hcr
        | some ty =>
          rw [hty] at hcr
          have hpair := Option.some.inj hcr
          have haa : ({ action_id := uuidGen gen,
                        action_type := ty,
                        actual_elements := UIElement.mk ca.element_id ca.xpath ::
                          (ca.elements.drop 1).map (fun eid => UIElement.mk eid ""),
                        exploration_flag := ExplorationFlag.unexplored,
                        function_desc := ca.function } : AbstractAction) = aa :=
            congrArg Prod.fst hpair
          have hg3 : gen + 1 = gen3 := congrArg Prod.snd hpair
          subst haa
          subst hg3
          have hcontains : dictContains
              (action_matches_existing ca K.abstract_actions).2 (uuidGen gen) = false :=
            (dictContains_eq_false_iff _ _).mpr (hf2 gen (Nat.le_refl gen))
          have hasHead : hasMatch
              (dictModify
                (dictInsert (action_matches_existing ca K.abstract_actions).2
                  (uuidGen gen) (createdAction stKey ca ty gen))
                (uuidGen gen)
                (fun a => { a with exploration_flag := ExplorationFlag.unexplored })) ca := by
            refine hasMatch_modify _ _
              (fun a => { a with exploration_flag := ExplorationFlag.unexplored })
              (fun a => ⟨rfl, rfl⟩) ca ?_
            rw [dictInsert_fresh_eq _ _ _ hcontains]
            refine ⟨(uuidGen gen, createdAction stKey ca ty gen),
              List.mem_append_right _ (List.mem_singleton_self _), ?_, ?_⟩
            · exact ActionType.value_of_ofString _ _ hty
            · simp [createdAction]
          have hkeysBig : dictKeys
              (dictModify
                (dictInsert (action_matches_existing ca K.abstract_actions).2
                  (uuidGen gen) (createdAction stKey ca ty gen))
                (uuidGen gen)
                (fun a => { a with exploration_flag := ExplorationFlag.unexplored })) =
              dictKeys (action_matches_existing ca K.abstract_actions).2 ++ [uuidGen gen] := by
            rw [dictKeys_modify, dictInsert_fresh_eq _ _ _ hcontains, dictKeys_append]
            rfl
          have hfreshBig : freshFor (gen + 1)
              (dictModify
                (dictInsert (action_matches_existing ca K.abstract_actions).2
                  (uuidGen gen) (createdAction stKey ca ty gen))
                (uuidGen gen)
                (fun a => { a with exploration_flag := ExplorationFlag.unexplored })) := by
            intro n hn
            rw [hkeysBig]
            rw [List.mem_append]
            rintro (hin | hin)
            · exact hf2 n (Nat.le_of_succ_le hn) hin
            · have := uuidGen_injective n gen (List.mem_singleton.mp hin)
              omega
          obtain ⟨hrest, hpres, hfr, hsig⟩ := ih _ (gen + 1) K2 gen2 hfreshBig hrun
          refine ⟨?_, ?_, hfr, ?_⟩
          · intro ca2 hca2
            rcases List.mem_cons.mp hca2 with rfl | hca3
            · exact hpres ca2 hasHead
            · exact hrest ca2 hca3
          · intro ca2 h2
            refine hpres ca2 ?_
            refine hasMatch_modify _ _
              (fun a => { a with exploration_flag := ExplorationFlag.unexplored })
              (fun a => ⟨rfl, rfl⟩) ca2 ?_
            rw [dictInsert_fresh_eq _ _ _ hcontains]
            exact hasMatch_append _ _ _ (action_matches_mono ca ca2 _ h2)
          · intro sig hs
            refine hsig sig ?_
            exact sigExists_modify K.abstract_states stKey
              (fun st =>
                { st with actions :=
                    setAdd st.actions (createdAction stKey ca ty gen).action_id })
              (fun st => rfl) sig hs

theorem clusterMerge_concrete (snap : Snapshot) (st : AbstractState) :
    (clusterMerge snap st).concrete_states = st.concrete_states ++ [snap] := by
  unfold clusterMerge
  dsimp only
  split <;> rfl

theorem clusterMerge_sig (snap : Snapshot) (st : AbstractState) :
    (clusterMerge snap st).repr_signature = st.repr_signature := by
  unfold clusterMerge
  dsimp only
  split <;> rfl

theorem mem_dictInsert_self {α : Type} (l : List (String × α)) (k : String)
    (v : α) : (k, v) ∈ dictInsert l k v := by
  unfold dictInsert
  cases h : dictContains l k with
  | true =>
    rw [if_pos rfl]
    unfold dictContains at h
    obtain ⟨p, hp, hpk⟩ := List.any_eq_true.mp h
    refine List.mem_map.mpr ⟨p, hp, ?_⟩
    rw [if_pos (of_decide_eq_true hpk)]
  | false =>
    rw [if_neg (by simp)]
    exact List.mem_append_right _ (List.mem_singleton_self _)

theorem match_state_oracle_none (O : Oracles) (hO : O.equiv = none)
    (K : AppKnowledge) (c : Cache) (snap : Snapshot) :
    match_state O K c snap =
      ((K.abstract_states.find? (fun p =>
          p.2.repr_signature = signature O.hash snap)).map (fun p => p.1), c) := by
  unfold match_state
  dsimp only
  cases hfind : K.abstract_states.find? (fun p =>
      p.2.repr_signature = signature O.hash snap) with
  | none =>
    dsimp only
    rw [hO]
    rfl
  | some p => rfl

theorem match_state_add_raw (O : Oracles) (K : AppKnowledge)
    (s0 : Option Snapshot) (a0 : Option ConcreteAction) (e0 : Snapshot)
    (c : Cache) (snap : Snapshot) :
    match_state O (K.add_raw_trace_item s0 a0 e0) c snap =
      match_state O K c snap := rfl

theorem match_state_of_sig (O : Oracles) (hO : O.equiv = none)
    (K : AppKnowledge) (c : Cache) (snap : Snapshot)
    (h : ∃ p ∈ K.abstract_states, p.2.repr_signature = signature O.hash snap) :
    ∃ sid, match_state O K c snap = (some sid, c) ∧
      dictContains K.abstract_states sid = true := by
  obtain ⟨p, hp, hsig⟩ := h
  have hsome : (K.abstract_states.find? (fun q =>
      q.2.repr_signature = signature O.hash snap)).isSome := by
    rw [List.find?_isSome]
    exact ⟨p, hp, decide_eq_true hsig⟩
  obtain ⟨q, hq⟩ := Option.isSome_iff_exists.mp hsome
  refine ⟨q.1, ?_, ?_⟩
  · rw [match_state_oracle_none O hO K c snap, hq]
    rfl
  · unfold dictContains
    rw [List.any_eq_true]
    exact ⟨q, List.mem_of_find?_eq_some hq, decide_eq_true rfl⟩

theorem updateStates_matched (O : Oracles) (K : AppKnowledge) (c c2 : Cache)
    (snap : Snapshot) (gen : Nat) (stKey : String)
    (h : match_state O K c snap = (some stKey, c2)) :
    updateStates O K c snap gen =
      ({ K with abstract_states :=
          dictModify K.abstract_states stKey (clusterMerge snap) },
       c2, stKey, gen) := by
  conv_lhs => unfold updateStates
  dsimp only
  rw [h]

theorem updateStates_facts (O : Oracles) (hO : O.equiv = none)
    (K : AppKnowledge) (c : Cache) (snap : Snapshot) (gen : Nat) :
    (updateStates O K c snap gen).1.abstract_actions = K.abstract_actions ∧
    gen ≤ (updateStates O K c snap gen).2.2.2 ∧
    (∃ p ∈ (updateStates O K c snap gen).1.abstract_states,
      p.2.repr_signature = signature O.hash snap) := by
  have hms := match_state_oracle_none O hO K c snap
  cases hfind : K.abstract_states.find? (fun p =>
      p.2.repr_signature = signature O.hash snap) with
  | some p =>
    have h : match_state O K c snap = (some p.1, c) := by
      rw [hms, hfind]
      rfl
    rw [updateStates_matched O K c c snap gen p.1 h]
    refine ⟨rfl, Nat.le_refl _, ?_⟩
    have hps := List.find?_some hfind
    exact sigExists_modify _ _ (clusterMerge snap) (clusterMerge_sig snap) _
      ⟨p, List.mem_of_find?_eq_some hfind, of_decide_eq_true hps⟩
  | none =>
    have h : match_state O K c snap = (none, c) := by
      rw [hms, hfind]
      rfl
    have hg : K.get_or_create_state (signature O.hash snap) gen =
        (uuidGen gen,
         { K with
           abstract_states := dictInsert K.abstract_states (uuidGen gen)
             { state_id := uuidGen gen, repr_signature := signature O.hash snap },
           aig := K.aig.add_state (uuidGen gen) },
         gen + 1) := by
      conv_lhs => unfold AppKnowledge.get_or_create_state
      rw [hfind]
    have heq : updateStates O K c snap gen =
        ({ { K with
             abstract_states := dictInsert K.abstract_states (uuidGen gen)
               { state_id := uuidGen gen, repr_signature := signature O.hash snap },
             aig := K.aig.add_state (uuidGen gen) } with
           abstract_states :=
             dictModify
               (dictInsert K.abstract_states (uuidGen gen)
                 { state_id := uuidGen gen, repr_signature := signature O.hash snap })
               (uuidGen gen)
               (fun st =>
                 { st with
                   concrete_states := st.concrete_states ++ [snap],
                   page_description := snap.page_description,
                   element_groups := snap.element_groups }) },
         c, uuidGen gen, gen + 1) := by
      conv_lhs => unfold updateStates
      dsimp only
      rw [h]
      dsimp only
      rw [hg]
    rw [heq]
    refine ⟨rfl, Nat.le_succ _, ?_⟩
    refine sigExists_modify _ _
      (fun st =>
        { st with
          concrete_states := st.concrete_states ++ [snap],
          page_description := snap.page_description,
          element_groups := snap.element_groups })
      (fun st => rfl) _
      ⟨(uuidGen gen,
        { state_id := uuidGen gen, repr_signature := signature O.hash snap }),
       mem_dictInsert_self _ _ _, rfl⟩

theorem update_action_flag_preserves (K : AppKnowledge) (aid : String)
    (fl : ExplorationFlag) :
    (K.update_action_flag aid fl).abstract_states = K.abstract_states ∧
    dictKeys (K.update_action_flag aid fl).abstract_actions =
      dictKeys K.abstract_actions ∧
    (∀ ca, hasMatch K.abstract_actions ca →
      hasMatch (K.update_action_flag aid fl).abstract_actions ca) := by
  unfold AppKnowledge.update_action_flag
  cases h : dictLookup K.abstract_actions aid with
  | none => exact ⟨rfl, rfl, fun ca hm => hm⟩
  | some a =>
    dsimp only
    refine ⟨rfl, ?_, fun ca hm => ?_⟩
    · exact dictKeys_modify _ _ _
    · exact hasMatch_modify _ _ (fun b => { b with exploration_flag := fl })
        (fun b => ⟨rfl, rfl⟩) ca hm

theorem aig_add_edge_preserves (K : AppKnowledge) (s aid d : String) :
    (K.aig_add_edge s aid d).abstract_states = K.abstract_states ∧
    dictKeys (K.aig_add_edge s aid d).abstract_actions =
      dictKeys K.abstract_actions ∧
    (∀ ca, hasMatch K.abstract_actions ca →
      hasMatch (K.aig_add_edge s aid d).abstract_actions ca) := by
  unfold AppKnowledge.aig_add_edge
  refine ⟨rfl, ?_, fun ca hm => ?_⟩
  · dsimp only
    exact dictKeys_modify _ _ _
  · dsimp only
    exact hasMatch_modify _ _
      (fun b => { b with source_abs_state := some s, target_abs_state := some d })
      (fun b => ⟨rfl, rfl⟩) ca hm

theorem updatePrev_preserves (O : Oracles) (K : AppKnowledge) (c : Cache)
    (ps : Snapshot) (pa : ConcreteAction) (nk : String) :
    (updatePrev O K c ps pa nk).1.abstract_states = K.abstract_states ∧
    dictKeys (updatePrev O K c ps pa nk).1.abstract_actions =
      dictKeys K.abstract_actions ∧
    (∀ ca, hasMatch K.abstract_actions ca →
      hasMatch (updatePrev O K c ps pa nk).1.abstract_actions ca) := by
  unfold updatePrev
  cases hms : match_state O K c ps with
  | mk o c2 =>
  cases o with
  | none => exact ⟨rfl, rfl, fun ca h => h⟩
  | some prevKey =>
    dsimp only
    cases hma : match_abstract_action K pa with
    | none => exact ⟨rfl, rfl, fun ca h => h⟩
    | some aid =>
      dsimp only
      have h1 := update_action_flag_preserves K aid ExplorationFlag.explored
      by_cases hpn : prevKey = nk
      · rw [if_pos hpn]
        have h2 := update_action_flag_preserves
          (K.update_action_flag aid ExplorationFlag.explored) aid
          ExplorationFlag.ineffective
        have hKb : ((K.update_action_flag aid
              ExplorationFlag.explored).update_action_flag aid
              ExplorationFlag.ineffective).abstract_states =
              K.abstract_states ∧
            dictKeys ((K.update_action_flag aid
              ExplorationFlag.explored).update_action_flag aid
              ExplorationFlag.ineffective).abstract_actions =
              dictKeys K.abstract_actions ∧
            (∀ ca, hasMatch K.abstract_actions ca →
              hasMatch ((K.update_action_flag aid
                ExplorationFlag.explored).update_action_flag aid
                ExplorationFlag.ineffective).abstract_actions ca) :=
          ⟨h2.1.trans h1.1, h2.2.1.trans h1.2.1,
           fun ca h => h2.2.2 ca (h1.2.2 ca h)⟩
        cases hdl : dictLookup ((K.update_action_flag aid
            ExplorationFlag.explored).update_action_flag aid
            ExplorationFlag.ineffective).abstract_actions aid with
        | none => exact hKb
        | some a =>
          dsimp only
          by_cases hfl : a.exploration_flag ≠ ExplorationFlag.ineffective
          · rw [if_pos hfl]
            have he := aig_add_edge_preserves
              ((K.update_action_flag aid
                ExplorationFlag.explored).update_action_flag aid
                ExplorationFlag.ineffective) prevKey aid nk
            exact ⟨he.1.trans hKb.1, he.2.1.trans hKb.2.1,
              fun ca h => he.2.2 ca (hKb.2.2 ca h)⟩
          · rw [if_neg hfl]
            exact hKb
      · rw [if_neg hpn]
        cases hdl : dictLookup (K.update_action_flag aid
            ExplorationFlag.explored).abstract_actions aid with
        | none => exact h1
        | some a =>
          dsimp only
          by_cases hfl : a.exploration_flag ≠ ExplorationFlag.ineffective
          · rw [if_pos hfl]
            have he := aig_add_edge_preserves
              (K.update_action_flag aid ExplorationFlag.explored) prevKey aid nk
            exact ⟨he.1.trans h1.1, he.2.1.trans h1.2.1,
              fun ca h => he.2.2 ca (h1.2.2 ca h)⟩
          · rw [if_neg hfl]
            exact h1

theorem updatePrev_states (O : Oracles) (K : AppKnowledge) (c : Cache)
    (ps : Snapshot) (pa : ConcreteAction) (nk : String) :
    (updatePrev O K c ps pa nk).1.abstract_states = K.abstract_states :=
  (updatePrev_preserves O K c ps pa nk).1

theorem updatePrev_keys (O : Oracles) (K : AppKnowledge) (c : Cache)
    (ps : Snapshot) (pa : ConcreteAction) (nk : String) :
    dictKeys (updatePrev O K c ps pa nk).1.abstract_actions =
      dictKeys K.abstract_actions :=
  (updatePrev_preserves O K c ps pa nk).2.1

theorem updatePrev_hasMatch (O : Oracles) (K : AppKnowledge) (c : Cache)
    (ps : Snapshot) (pa : ConcreteAction) (nk : String) (ca : ConcreteAction)
    (h : hasMatch K.abstract_actions ca) :
    hasMatch (updatePrev O K c ps pa nk).1.abstract_actions ca :=
  (updatePrev_preserves O K c ps pa nk).2.2 ca h

theorem update_knowledge_ingests (O : Oracles) (hO : O.equiv = none)
    (K0 : AppKnowledge) (c0 : Cache) (g0 : Nat) (ps : Option Snapshot)
    (pa : Option ConcreteAction) (ns : Snapshot) (K1 : AppKnowledge)
    (c1 : Cache) (g1 : Nat) (hfresh : freshFor g0 K0.abstract_actions)
    (hrun1 : update_knowledge O K0 c0 g0 ps pa ns = some (K1, c1, g1)) :
    (∀ ca ∈ (match ns.grouped_actions with
      | some l => l
      | none => O.grouper ns), hasMatch K1.abstract_actions ca) ∧
    (∃ p ∈ K1.abstract_states, p.2.repr_signature = signature O.hash ns) := by
  obtain ⟨hacts, hgle, hsig0⟩ :=
    updateStates_facts O hO (K0.add_raw_trace_item ps pa ns) c0 ns g0
  unfold update_knowledge at hrun1
  dsimp only at hrun1
  rcases hUS : updateStates O (K0.add_raw_trace_item ps pa ns) c0 ns g0 with
    ⟨Kb, cb, key, gb⟩
  rw [hUS] at hacts hgle hsig0 hrun1
  dsimp only at hacts hgle hsig0 hrun1
  have hacts2 : Kb.abstract_actions = K0.abstract_actions := hacts
  have hfresh1 : freshFor gb Kb.abstract_actions :=
    freshFor_keys_eq _ _ _ (freshFor_mono g0 gb _ hfresh hgle)
      (congrArg dictKeys hacts2)
  cases hpc : processCandidates key (match ns.grouped_actions with
      | some l => l
      | none => O.grouper ns) Kb gb with
  | none =>
    rw [hpc] at hrun1
    exact Option.noConfusion hrun1
  | some pr =>
    obtain ⟨Kc, gc⟩ := pr
    rw [hpc] at hrun1
    dsimp only at hrun1
    obtain ⟨hmatch, hpresM, hfrC, hsigC⟩ :=
      processCandidates_establishes key _ Kb gb Kc gc hfresh1 hpc
    have hsigKc : ∃ p ∈ Kc.abstract_states,
        p.2.repr_signature = signature O.hash ns := hsigC _ hsig0
    cases ps with
    | none =>
      dsimp only at hrun1
      have hK1 : Kc = K1 := congrArg Prod.fst (Option.some.inj hrun1)
      rw [← hK1]
      exact ⟨hmatch, hsigKc⟩
    | some psv =>
      cases pa with
      | none =>
        dsimp only at hrun1
        have hK1 : Kc = K1 := congrArg Prod.fst (Option.some.inj hrun1)
        rw [← hK1]
        exact ⟨hmatch, hsigKc⟩
      | some pav =>
        dsimp only at hrun1
        have hK1 : (updatePrev O Kc cb psv pav key).1 = K1 :=
          congrArg Prod.fst (Option.some.inj hrun1)
        rw [← hK1]
        refine ⟨fun ca hca =>
          updatePrev_hasMatch O Kc cb psv pav key ca (hmatch ca hca), ?_⟩
        rw [updatePrev_states]
        exact hsigKc

theorem update_knowledge_rematch (O : Oracles) (hO : O.equiv = none)
    (K1 : AppKnowledge) (c1 : Cache) (g1 : Nat) (ps : Option Snapshot)
    (pa : Option ConcreteAction) (ns : Snapshot)
    (hall : ∀ ca ∈ (match ns.grouped_actions with
      | some l => l
      | none => O.grouper ns), hasMatch K1.abstract_actions ca)
    (hsig : ∃ p ∈ K1.abstract_states, p.2.repr_signature = signature O.hash ns) :
    ∃ K2 c2 g2 sid st1,
      update_knowledge O K1 c1 g1 ps pa ns = some (K2, c2, g2) ∧
      dictKeys K2.abstract_actions = dictKeys K1.abstract_actions ∧
      (match_state O K1 c1 ns).1 = some sid ∧
      dictLookup K1.abstract_states sid = some st1 ∧
      dictLookup K2.abstract_states sid = some (clusterMerge ns st1) ∧
      (clusterMerge ns st1).concrete_states.length =
        st1.concrete_states.length + 1 := by
  have hsigA : ∃ p ∈ (K1.add_raw_trace_item ps pa ns).abstract_states,
      p.2.repr_signature = signature O.hash ns := hsig
  obtain ⟨sid, hms2, hcont⟩ :=
    match_state_of_sig O hO (K1.add_raw_trace_item ps pa ns) c1 ns hsigA
  obtain ⟨st1, hst1⟩ := dictContains_true_lookup _ _ hcont
  have hms1 : match_state O K1 c1 ns = (some sid, c1) :=
    (match_state_add_raw O K1 ps pa ns c1 ns).symm.trans hms2
  have hus2 := updateStates_matched O (K1.add_raw_trace_item ps pa ns) c1 c1
    ns g1 sid hms2
  obtain ⟨A2, heq2, hkeys2⟩ := processCandidates_all_match sid
    (match ns.grouped_actions with
      | some l => l
      | none => O.grouper ns)
    { K1.add_raw_trace_item ps pa ns with
      abstract_states :=
        dictModify (K1.add_raw_trace_item ps pa ns).abstract_states sid
          (clusterMerge ns) }
    g1 (fun ca hca => hall ca hca)
  unfold update_knowledge
  dsimp only
  rw [hus2]
  dsimp only
  rw [heq2]
  dsimp only
  cases ps with
  | none =>
    refine ⟨_, _, _, sid, st1, rfl, hkeys2, congrArg Prod.fst hms1, hst1, ?_, ?_⟩
    · dsimp only
      rw [dictLookup_modify_self, hst1]
      rfl
    · rw [clusterMerge_concrete]
      simp
  | some psv =>
    cases pa with
    | none =>
      refine ⟨_, _, _, sid, st1, rfl, hkeys2, congrArg Prod.fst hms1, hst1, ?_, ?_⟩
      · dsimp only
        rw [dictLookup_modify_self, hst1]
        rfl
      · rw [clusterMerge_concrete]
        simp
    | some pav =>
      refine ⟨_, _, _, sid, st1, rfl, ?_, congrArg Prod.fst hms1, hst1, ?_, ?_⟩
      · exact (updatePrev_keys O _ c1 psv pav sid).trans hkeys2
      · rw [updatePrev_states]
        dsimp only
        rw [dictLookup_modify_self, hst1]
        rfl
      · rw [clusterMerge_concrete]
        simp

/-- C5: re-ingesting an already-ingested triple is idempotent on the action
table and appends exactly one snapshot to the matched cluster. For any
knowledge state whose pending uuids are fresh for the action table and any
triple already ingested by update_knowledge (with no semantic-equivalence
oracle configured), a second update_knowledge call on the same triple
succeeds, registers no new abstract action (the action-table keys are
unchanged), resolves the new snapshot to an existing state, and grows that
state's concrete-snapshot cluster by exactly one entry. -/
theorem update_knowledge_idempotent (O : Oracles) (hO : O.equiv = none)
    (K0 : AppKnowledge) (c0 : Cache) (g0 : Nat) (ps : Option Snapshot)
    (pa : Option ConcreteAction) (ns : Snapshot) (K1 : AppKnowledge)
    (c1 : Cache) (g1 : Nat) (hfresh : freshFor g0 K0.abstract_actions)
    (hrun1 : update_knowledge O K0 c0 g0 ps pa ns = some (K1, c1, g1)) :
    ∃ K2 c2 g2 sid st1,
      update_knowledge O K1 c1 g1 ps pa ns = some (K2, c2, g2) ∧
      dictKeys K2.abstract_actions = dictKeys K1.abstract_actions ∧
      (match_state O K1 c1 ns).1 = some sid ∧
      dictLookup K1.abstract_states sid = some st1 ∧
      dictLookup K2.abstract_states sid = some (clusterMerge ns st1) ∧
      (clusterMerge ns st1).concrete_states.length =
        st1.concrete_states.length + 1 := by
  obtain ⟨hall, hsig⟩ :=
    update_knowledge_ingests O hO K0 c0 g0 ps pa ns K1 c1 g1 hfresh hrun1
  exact update_knowledge_rematch O hO K1 c1 g1 ps pa ns hall hsig

theorem update_knowledge_idempotent_witness :
    ∃ K2 c2 g2 sid st1,
      update_knowledge oracleId wRun1.1 wRun1.2.1 wRun1.2.2 none none snapX =
        some (K2, c2, g2) ∧
      dictKeys K2.abstract_actions = dictKeys wRun1.1.abstract_actions ∧
      (match_state oracleId wRun1.1 wRun1.2.1 snapX).1 = some sid ∧
      dictLookup wRun1.1.abstract_states sid = some st1 ∧
      dictLookup K2.abstract_states sid = some (clusterMerge snapX st1) ∧
      (clusterMerge snapX st1).concrete_states.length =
        st1.concrete_states.length + 1 :=
  update_knowledge_idempotent oracleId rfl emptyKnowledge [] 0 none none snapX
    wRun1.1 wRun1.2.1 wRun1.2.2
    (fun n hn hmem => absurd hmem (List.not_mem_nil _)) rfl

end WebExplorer
